import Mathlib

/-!
# Verification of the konveyor/controller inventory core

A shallow embedding, in Lean 4, of the parts of the konveyor/controller
repository that the checked claims are about:

* `pkg/filebacked/file.go` — the spill-to-disk list: writer, on-disk byte
  layout, reader, process-wide type catalog;
* `pkg/inventory/model/journal.go` — the journal, watches, the per-watch
  dispatch loop and the commit fan-out;
* `pkg/inventory/model/client.go` — transactions: staging of events,
  commit/rollback visibility;
* `pkg/inventory/model/table.go` — table CRUD against the relational store,
  field tags (detail levels), field staging (pull/push).

Each definition is translated from the Go source; where the deciding code is
not part of the repository snapshot (the gob/json encoders of the Go standard
library, the `catalog` helper of `pkg/filebacked`, `Event.append`), the
definition is modelled from the specification and says so in its doc comment.
-/

namespace Spec2Proof

/-! ## Little-endian byte encodings (`binary.LittleEndian` in file.go)

Bytes are modeled as `Nat` values `< 256`.  `leBytes w n` is the `w`-byte
little-endian encoding of `n` (`binary.LittleEndian.PutUint16/PutUint64`);
`leVal` is the corresponding read (`binary.LittleEndian.Uint16/Uint64`). -/

/-- `w`-byte little-endian encoding of `n` (low byte first). -/
def leBytes : Nat → Nat → List Nat
  | 0, _ => []
  | w + 1, n => n % 256 :: leBytes w (n / 256)

/-- Value of a little-endian byte string. -/
def leVal : List Nat → Nat
  | [] => 0
  | b :: bs => b + 256 * leVal bs

/-- `binary.LittleEndian.PutUint16`. -/
def u16le (n : Nat) : List Nat := leBytes 2 n

/-- `binary.LittleEndian.PutUint64`. -/
def u64le (n : Nat) : List Nat := leBytes 8 n

theorem leBytes_length (w n : Nat) : (leBytes w n).length = w := by
  induction w generalizing n with
  | zero => rfl
  | succ w ih => simp [leBytes, ih]

theorem leVal_leBytes (w n : Nat) (h : n < 256 ^ w) : leVal (leBytes w n) = n := by
  induction w generalizing n with
  | zero =>
    simp [Nat.pow_zero, Nat.lt_one_iff] at h
    simp [leBytes, leVal, h]
  | succ w ih =>
    have hdiv : n / 256 < 256 ^ w := by
      apply Nat.div_lt_of_lt_mul
      rw [Nat.pow_succ] at h
      omega
    simp [leBytes, leVal, ih _ hdiv, Nat.mod_add_div]

theorem u64le_length (n : Nat) : (u64le n).length = 8 := leBytes_length 8 n

theorem u16le_length (n : Nat) : (u16le n).length = 2 := leBytes_length 2 n

theorem leVal_u64le (n : Nat) (h : n < 2 ^ 64) : leVal (u64le n) = n := by
  apply leVal_leBytes
  have : (256 : Nat) ^ 8 = 2 ^ 64 := by norm_num
  omega

theorem leVal_u16le (n : Nat) (h : n < 2 ^ 16) : leVal (u16le n) = n := by
  apply leVal_leBytes
  have : (256 : Nat) ^ 2 = 2 ^ 16 := by norm_num
  omega

/-! ## The spill-list value universe and its payload encoding

`pkg/filebacked` stores heterogeneous typed Go values: the repository's own
test (`list_test.go`) alternates two struct types.  We embed a two-type
universe; `FbKind` is the reflected type, `FbValue` a typed value. -/

/-- A reflected Go type registered with the filebacked catalog. -/
inductive FbKind
  | person
  | user
  deriving DecidableEq, Repr, Fintype

/-- A typed value stored in a spill list (mirrors the two struct types
used by `list_test.go`). -/
inductive FbValue
  | person (id age : Nat)
  | user (uid : Nat)
  deriving DecidableEq, Repr

/-- Reflected type of a value (`reflect.TypeOf` as used by the catalog). -/
def FbValue.kindOf : FbValue → FbKind
  | .person _ _ => .person
  | .user _ => .user

/-- Modelled from the spec: the gob payload encoding of `encoding/gob`
(not part of the repository) — "a self-describing value encoder …
sufficient to reconstruct typed values".  Numbers are encoded as
little-endian base-255 digit strings closed by a `255` terminator byte,
which is self-delimiting; a struct is the concatenation of its fields.
`natPayloadAux` carries explicit fuel (≥ n) to stay structurally
recursive. -/
def natPayloadAux : Nat → Nat → List Nat
  | 0, _ => []
  | fuel + 1, n => if n = 0 then [] else n % 255 :: natPayloadAux fuel (n / 255)

/-- Base-255 little-endian digits of `n` (every digit `< 255`). -/
def natPayload (n : Nat) : List Nat := natPayloadAux n n

/-- Digits of `n`, closed by the `255` terminator. -/
def encNat (n : Nat) : List Nat := natPayload n ++ [255]

/-- Modelled from the spec: gob-encode one typed value (see `natPayloadAux`). -/
def gobEncode : FbValue → List Nat
  | .person a b => encNat a ++ encNat b
  | .user u => encNat u

/-- Parse one terminated base-255 number off the front of a byte string. -/
def parseNat255 : List Nat → Option (Nat × List Nat)
  | [] => none
  | b :: rest =>
    if b = 255 then some (0, rest)
    else (parseNat255 rest).map fun p => (b + 255 * p.1, p.2)

/-- Modelled from the spec: gob-decode a payload into a fresh instance of
the catalog prototype for `kind` (the decoder knows the target type). -/
def gobDecode : FbKind → List Nat → Option FbValue
  | .person, bs => do
    let (a, r) ← parseNat255 bs
    let (b, _) ← parseNat255 r
    pure (FbValue.person a b)
  | .user, bs => do
    let (u, _) ← parseNat255 bs
    pure (FbValue.user u)

theorem natPayloadAux_digit_lt (fuel n : Nat) :
    ∀ d ∈ natPayloadAux fuel n, d < 255 := by
  induction fuel generalizing n with
  | zero => intro d hd; simp [natPayloadAux] at hd
  | succ fuel ih =>
    intro d hd
    by_cases h0 : n = 0
    · simp [natPayloadAux, h0] at hd
    · simp [natPayloadAux, h0] at hd
      rcases hd with hd | hd
      · omega
      · exact ih _ _ hd

theorem parseNat255_encNat_aux (fuel n : Nat) (hf : n ≤ fuel) (rest : List Nat) :
    parseNat255 (natPayloadAux fuel n ++ [255] ++ rest) = some (n, rest) := by
  induction fuel generalizing n with
  | zero =>
    have : n = 0 := Nat.le_zero.mp hf
    simp [natPayloadAux, parseNat255, this]
  | succ fuel ih =>
    by_cases h0 : n = 0
    · simp [natPayloadAux, parseNat255, h0]
    · have hlt : n % 255 < 255 := Nat.mod_lt _ (by norm_num)
      have hdivle : n / 255 ≤ fuel := by
        have := Nat.div_lt_self (Nat.pos_of_ne_zero h0) (by norm_num : 1 < 255)
        omega
      simp only [natPayloadAux, h0, if_false, List.cons_append, parseNat255]
      rw [if_neg (by omega)]
      rw [ih _ hdivle]
      simp [Nat.mod_add_div]

theorem parseNat255_encNat (n : Nat) (rest : List Nat) :
    parseNat255 (encNat n ++ rest) = some (n, rest) := by
  have := parseNat255_encNat_aux n n (Nat.le_refl n) rest
  simpa [encNat] using this

/-- Gob round trip: decoding at the value's own kind restores the value. -/
theorem gobDecode_gobEncode (v : FbValue) :
    gobDecode v.kindOf (gobEncode v) = some v := by
  cases v with
  | person a b =>
    have hb : parseNat255 (encNat b) = some (b, []) := by
      simpa using parseNat255_encNat b []
    simp only [FbValue.kindOf, gobEncode, gobDecode, List.append_assoc]
    rw [parseNat255_encNat]
    simp [hb]
  | user u =>
    have hu : parseNat255 (encNat u) = some (u, []) := by
      simpa using parseNat255_encNat u []
    simp only [FbValue.kindOf, gobEncode, gobDecode]
    simp [hu]

/-! ## The catalog and the writer (`file.go`, `list.go`)

The catalog is referenced by `file.go` (`catalog.add`, `catalog.build`) but
its own file is not part of the snapshot; it is modelled from the spec:
"a process-wide catalog maps kind → prototype value …; kinds are assigned
densely from 0 in first-appearance order". -/

/-- Position of a registered kind in the catalog, if present. -/
def catalogFind : List FbKind → FbKind → Option Nat
  | [], _ => none
  | c :: rest, k => if c = k then some 0 else (catalogFind rest k).map (· + 1)

/-- Modelled from the spec: `catalog.add` — return the kind number of the
value's type, registering it at the next dense index on first appearance. -/
def catalogAdd (cat : List FbKind) (k : FbKind) : List FbKind × Nat :=
  match catalogFind cat k with
  | some i => (cat, i)
  | none => (cat ++ [k], cat.length)

/-- Modelled from the spec: `catalog.build` — a fresh prototype of the
registered kind, if any. -/
def catalogBuild (cat : List FbKind) (i : Nat) : Option FbKind := cat[i]?

/-- `filebacked.Writer`: lazily-opened backing file plus object count.
The file content is the byte list; `opened` mirrors `w.file != nil`. -/
structure Writer where
  opened : Bool
  file : List Nat
  length : Nat
  deriving DecidableEq, Repr

/-- A zero `Writer` (a fresh `fb.List`'s embedded writer). -/
def Writer.fresh : Writer := ⟨false, [], 0⟩

/-- `Writer.writeLength`: seek to 0, overwrite the 8-byte header with the
little-endian count, seek back to the end. -/
def writeLength (w : Writer) : Writer :=
  { w with file := u64le w.length ++ w.file.drop 8 }

/-- `Writer.open`: no-op when open; otherwise create the (empty) file and
write the header. -/
def writerOpen (w : Writer) : Writer :=
  if w.opened then w else writeLength { w with opened := true, file := [] }

/-- `Writer.writeEntry`: append kind (2B LE), encoded length (8B LE) and the
payload, bump the count, rewrite the header. -/
def writeEntry (w : Writer) (kind : Nat) (bfr : List Nat) : Writer :=
  writeLength
    { w with
      file := w.file ++ u16le kind ++ u64le bfr.length ++ bfr
      length := w.length + 1 }

/-- The writer together with the process-wide catalog it consults. -/
structure FbSys where
  writer : Writer
  cat : List FbKind
  deriving DecidableEq, Repr

/-- A fresh list over an empty catalog. -/
def freshSys : FbSys := ⟨Writer.fresh, []⟩

/-- `Writer.Append`: lazy open, register the type, gob-encode, write entry. -/
def writerAppend (s : FbSys) (v : FbValue) : FbSys :=
  let w := writerOpen s.writer
  let (cat, kind) := catalogAdd s.cat v.kindOf
  ⟨writeEntry w kind (gobEncode v), cat⟩

/-- Append a whole sequence of values (`list.Append` in a loop). -/
def appendAll (s : FbSys) (vs : List FbValue) : FbSys := vs.foldl writerAppend s

/-! ### Specification-side description of the file bytes -/

/-- One on-disk entry: `kind (2B LE u16) | encoded-length (8B LE u64) |
payload`. -/
def entryBytes (kind : Nat) (payload : List Nat) : List Nat :=
  u16le kind ++ u64le payload.length ++ payload

/-- Run the catalog over a value sequence, listing each value's assigned
kind number and gob payload in order. -/
def stageAll (cat : List FbKind) : List FbValue → List FbKind × List (Nat × List Nat)
  | [] => (cat, [])
  | v :: vs =>
    let p := catalogAdd cat v.kindOf
    let q := stageAll p.1 vs
    (q.1, (p.2, gobEncode v) :: q.2)

/-- Flatten staged entries to bytes. -/
def entriesFlat (es : List (Nat × List Nat)) : List Nat :=
  (es.map fun e => entryBytes e.1 e.2).flatten

theorem stageAll_cons (cat : List FbKind) (v : FbValue) (vs : List FbValue) :
    stageAll cat (v :: vs)
      = ((stageAll (catalogAdd cat v.kindOf).1 vs).1,
         ((catalogAdd cat v.kindOf).2, gobEncode v)
           :: (stageAll (catalogAdd cat v.kindOf).1 vs).2) := rfl

theorem u64le_drop8 (n : Nat) (l : List Nat) : (u64le n ++ l).drop 8 = l := by
  have h := u64le_length n
  rw [List.drop_append_of_le_length (by omega)]
  simp [h]

/-- Closed form of a run of appends on an already-open, well-formed writer:
the header counts every object and each append contributes one entry. -/
theorem appendAll_open (vs : List FbValue) :
    ∀ (cat : List FbKind) (body : List Nat) (len : Nat),
    appendAll ⟨⟨true, u64le len ++ body, len⟩, cat⟩ vs
      = ⟨⟨true, u64le (len + vs.length) ++ (body ++ entriesFlat (stageAll cat vs).2),
            len + vs.length⟩,
         (stageAll cat vs).1⟩ := by
  induction vs with
  | nil => intro cat body len; simp [appendAll, stageAll, entriesFlat]
  | cons v vs ih =>
    intro cat body len
    have hstep :
        writerAppend ⟨⟨true, u64le len ++ body, len⟩, cat⟩ v
          = ⟨⟨true, u64le (len + 1) ++ (body ++ entryBytes (catalogAdd cat v.kindOf).2 (gobEncode v)),
                len + 1⟩,
             (catalogAdd cat v.kindOf).1⟩ := by
      simp only [writerAppend, writerOpen, if_pos rfl, writeEntry, writeLength, entryBytes]
      simp [u64le_drop8, List.append_assoc]
    show appendAll _ (v :: vs) = _
    rw [appendAll, List.foldl_cons, hstep]
    have := ih (catalogAdd cat v.kindOf).1
      (body ++ entryBytes (catalogAdd cat v.kindOf).2 (gobEncode v)) (len + 1)
    rw [appendAll] at this
    rw [this]
    simp only [entriesFlat, stageAll_cons, List.map_cons, List.flatten_cons, List.length_cons]
    rw [show len + 1 + vs.length = len + (vs.length + 1) from by omega]
    simp [List.append_assoc]

/-! ### The reader (`file.go` `Reader`) -/

/-- `filebacked.Reader`: a hard-linked copy of the writer's file, with a
read cursor.  The lazy `open()` seeks past the 8-byte header, so a freshly
opened reader's cursor is 8. -/
structure Reader where
  file : List Nat
  cursor : Nat
  deriving DecidableEq, Repr

/-- `Writer.Reader()` followed by the lazy `open()`: link the current file,
position past the header. -/
def newReader (w : Writer) : Reader := ⟨w.file, 8⟩

/-- `Reader.Len()`: peek the 8-byte header without disturbing the cursor. -/
def readerLen (r : Reader) : Nat := leVal (r.file.take 8)

/-- `Reader.readEntry`: at end-of-file report no next; otherwise read the
2-byte kind, the 8-byte length `L`, and `L` payload bytes. -/
def readEntry (r : Reader) : Option (Nat × List Nat × Reader) :=
  if r.file.length ≤ r.cursor then none
  else
    let kind := leVal ((r.file.drop r.cursor).take 2)
    let len := leVal ((r.file.drop (r.cursor + 2)).take 8)
    let payload := (r.file.drop (r.cursor + 10)).take len
    some (kind, payload, ⟨r.file, r.cursor + 10 + len⟩)

/-- `Reader.Next()`: read an entry, build the catalog prototype for its
kind, gob-decode the payload into it. -/
def readerNext (cat : List FbKind) (r : Reader) : Option (FbValue × Reader) :=
  match readEntry r with
  | none => none
  | some (kind, payload, r') =>
    match catalogBuild cat kind with
    | none => none
    | some proto =>
      match gobDecode proto payload with
      | none => none
      | some v => some (v, r')

/-- Drain the reader with `Next()` until no next object; the fuel only
bounds the loop so the recursion is structural (the file length plus one
always suffices, see `readAll`). -/
def readAllFuel (cat : List FbKind) : Nat → Reader → List FbValue
  | 0, _ => []
  | fuel + 1, r =>
    match readerNext cat r with
    | none => []
    | some (v, r') => v :: readAllFuel cat fuel r'

/-- Drain the reader: every successful read advances the cursor, so the
file length plus one bounds the number of iterations. -/
def readAll (cat : List FbKind) (r : Reader) : List FbValue :=
  readAllFuel cat (r.file.length + 1) r

/-- `List.Iter()`: a reader over the file when the list is non-empty,
otherwise the `EmptyIterator` — here, drained to the value sequence. -/
def iterAll (s : FbSys) : List FbValue :=
  if s.writer.length ≠ 0 then readAll s.cat (newReader s.writer) else []

/-- `List.Iter().Len()` under the same emptiness split. -/
def iterLen (s : FbSys) : Nat :=
  if s.writer.length ≠ 0 then readerLen (newReader s.writer) else 0

/-! ### Catalog lemmas -/

theorem catalogFind_some {cat : List FbKind} {k : FbKind} :
    ∀ {i : Nat}, catalogFind cat k = some i → cat[i]? = some k ∧ i < cat.length := by
  induction cat with
  | nil => intro i h; simp [catalogFind] at h
  | cons c rest ih =>
    intro i h
    by_cases hc : c = k
    · simp [catalogFind, hc] at h
      subst h
      simp [hc]
    · simp only [catalogFind, if_neg hc, Option.map_eq_some'] at h
      obtain ⟨j, hj, rfl⟩ := h
      have := ih hj
      simp only [List.getElem?_cons_succ, List.length_cons]
      exact ⟨this.1, by omega⟩

theorem catalogFind_none {cat : List FbKind} {k : FbKind}
    (h : catalogFind cat k = none) : k ∉ cat := by
  induction cat with
  | nil => simp
  | cons c rest ih =>
    by_cases hc : c = k
    · simp [catalogFind, hc] at h
    · simp only [catalogFind, if_neg hc, Option.map_eq_none'] at h
      simp [ih h, hc, Ne.symm hc]

theorem catalogAdd_spec (cat : List FbKind) (k : FbKind) :
    ((catalogAdd cat k).1)[(catalogAdd cat k).2]? = some k ∧
    (catalogAdd cat k).2 < (catalogAdd cat k).1.length ∧
    (∃ t, (catalogAdd cat k).1 = cat ++ t) ∧
    (cat.Nodup → (catalogAdd cat k).1.Nodup) := by
  unfold catalogAdd
  cases h : catalogFind cat k with
  | some i =>
    have hs := catalogFind_some h
    exact ⟨hs.1, hs.2, ⟨[], by simp⟩, fun hn => hn⟩
  | none =>
    have hk : k ∉ cat := catalogFind_none h
    refine ⟨?_, by simp, ⟨[k], rfl⟩, fun hn => ?_⟩
    · simp
    · simp [List.nodup_append, hn, hk]

/-- A duplicate-free catalog over the two registered kinds has at most two
entries, so every assigned kind number fits the on-disk `uint16`. -/
theorem catalog_length_le (cat : List FbKind) (h : cat.Nodup) : cat.length ≤ 2 := by
  have hc : Fintype.card FbKind = 2 := rfl
  have := List.Nodup.length_le_card h
  omega

/-! ### Reading back a well-formed file -/

theorem entriesFlat_cons (e : Nat × List Nat) (es : List (Nat × List Nat)) :
    entriesFlat (e :: es) = entryBytes e.1 e.2 ++ entriesFlat es := by
  simp [entriesFlat]

theorem entryBytes_length (k : Nat) (p : List Nat) :
    (entryBytes k p).length = 10 + p.length := by
  simp [entryBytes, u16le_length, u64le_length]
  omega

theorem length_le_entriesFlat (es : List (Nat × List Nat)) :
    es.length ≤ (entriesFlat es).length := by
  induction es with
  | nil => simp [entriesFlat]
  | cons e es ih =>
    rw [entriesFlat_cons]
    simp only [List.length_append, List.length_cons, entryBytes_length]
    omega

/-- Decoding one entry at a well-formed position: the kind, length and
payload come back exactly, and the cursor lands on the next entry. -/
theorem readEntry_at (file : List Nat) (c k : Nat) (p rest : List Nat)
    (hdrop : file.drop c = entryBytes k p ++ rest)
    (hk : k < 2 ^ 16) (hp : p.length < 2 ^ 64) :
    readEntry ⟨file, c⟩ = some (k, p, ⟨file, c + 10 + p.length⟩) ∧
      file.drop (c + 10 + p.length) = rest := by
  have hlen2 := u16le_length k
  have hlen8 := u64le_length p.length
  have hcur : ¬ file.length ≤ c := by
    intro hle
    have h0 : (file.drop c).length = 0 := by
      simp [List.length_drop]
      omega
    rw [hdrop] at h0
    simp [entryBytes_length] at h0
  have hsplit : file.drop c = u16le k ++ (u64le p.length ++ (p ++ rest)) := by
    simpa [entryBytes, List.append_assoc] using hdrop
  have htake2 : (file.drop c).take 2 = u16le k := by
    rw [hsplit, ← hlen2, List.take_left]
  have hdrop2 : file.drop (c + 2) = u64le p.length ++ (p ++ rest) := by
    rw [← List.drop_drop, hsplit, ← hlen2, List.drop_left]
  have htake8 : (file.drop (c + 2)).take 8 = u64le p.length := by
    rw [hdrop2, ← hlen8, List.take_left]
  have hdrop10 : file.drop (c + 10) = p ++ rest := by
    rw [show c + 10 = c + 2 + 8 from by omega, ← List.drop_drop, hdrop2, ← hlen8,
      List.drop_left]
  have hdropEnd : file.drop (c + 10 + p.length) = rest := by
    rw [← List.drop_drop, hdrop10, List.drop_left]
  refine ⟨?_, hdropEnd⟩
  simp only [readEntry, if_neg hcur]
  rw [htake2, leVal_u16le k hk, htake8, leVal_u64le _ hp, hdrop10, List.take_left]

/-- Per-entry faithfulness used to replay a file: the catalog rebuilds the
value's kind, the payload is the value's encoding, and both on-disk numbers
fit their fixed-width slots. -/
def GoodEntry (cat : List FbKind) (e : Nat × List Nat) (v : FbValue) : Prop :=
  catalogBuild cat e.1 = some v.kindOf ∧ e.2 = gobEncode v ∧
    e.1 < 2 ^ 16 ∧ e.2.length < 2 ^ 64

/-- Draining a reader positioned on a sequence of well-formed entries
returns exactly the staged values, in order. -/
theorem readAllFuel_spec (cat : List FbKind) :
    ∀ (entries : List (Nat × List Nat)) (vs : List FbValue) (fuel : Nat)
      (file : List Nat) (c : Nat),
      List.Forall₂ (GoodEntry cat) entries vs →
      file.drop c = entriesFlat entries →
      entries.length ≤ fuel →
      readAllFuel cat fuel ⟨file, c⟩ = vs := by
  intro entries
  induction entries with
  | nil =>
    intro vs fuel file c hF hdrop _
    have hvs : vs = [] := List.forall₂_nil_left_iff.mp hF
    subst hvs
    have hend : file.length ≤ c := by
      have h0 : (file.drop c).length = 0 := by rw [hdrop]; simp [entriesFlat]
      simp [List.length_drop] at h0
      omega
    cases fuel with
    | zero => rfl
    | succ f => simp [readAllFuel, readerNext, readEntry, if_pos hend]
  | cons e es ih =>
    intro vs fuel file c hF hdrop hfuel
    obtain ⟨v, vs', hgood, hF', rfl⟩ := List.forall₂_cons_left_iff.mp hF
    obtain ⟨hbuild, hpayload, hk, hp⟩ := hgood
    cases fuel with
    | zero => simp at hfuel
    | succ f =>
      rw [entriesFlat_cons] at hdrop
      have hre := readEntry_at file c e.1 e.2 (entriesFlat es) hdrop hk hp
      have hdecode : gobDecode v.kindOf e.2 = some v := by
        rw [hpayload]; exact gobDecode_gobEncode v
      have hnext : readerNext cat ⟨file, c⟩ = some (v, ⟨file, c + 10 + e.2.length⟩) := by
        simp [readerNext, hre.1, hbuild, hdecode]
      simp only [readAllFuel, hnext]
      rw [ih vs' f file (c + 10 + e.2.length) hF' hre.2 (by simpa using hfuel)]

/-- The staging pass is sound: the final catalog is duplicate-free, extends
the initial one, and every staged entry is `GoodEntry` for it. -/
theorem stageAll_sound (vs : List FbValue) :
    ∀ cat : List FbKind, cat.Nodup →
      (stageAll cat vs).1.Nodup ∧
      (∃ t, (stageAll cat vs).1 = cat ++ t) ∧
      List.Forall₂
        (fun e v => ((stageAll cat vs).1)[e.1]? = some (FbValue.kindOf v) ∧
          e.2 = gobEncode v ∧ e.1 < 2 ^ 16)
        (stageAll cat vs).2 vs := by
  induction vs with
  | nil =>
    intro cat h
    exact ⟨h, ⟨[], by simp [stageAll]⟩, by simp [stageAll]⟩
  | cons v vs ih =>
    intro cat hnd
    have hadd := catalogAdd_spec cat v.kindOf
    obtain ⟨hget, hlt, ⟨t0, ht0⟩, hndf⟩ := hadd
    obtain ⟨hndRes, ⟨t, ht⟩, hF⟩ := ih (catalogAdd cat v.kindOf).1 (hndf hnd)
    rw [stageAll_cons]
    refine ⟨hndRes, ⟨t0 ++ t, by rw [ht, ht0, List.append_assoc]⟩, ?_⟩
    refine List.Forall₂.cons ⟨?_, rfl, ?_⟩ hF
    · rw [ht, List.getElem?_append_left hlt]
      exact hget
    · have hb := catalog_length_le _ (hndf hnd)
      omega

theorem forall₂_and_right {α β : Type} {R : α → β → Prop} {P : β → Prop} :
    ∀ {es : List α} {vs : List β}, List.Forall₂ R es vs → (∀ v ∈ vs, P v) →
      List.Forall₂ (fun e v => R e v ∧ P v) es vs := by
  intro es vs h
  induction h with
  | nil => intro; exact List.Forall₂.nil
  | cons hr _ ih =>
    intro hP
    exact List.Forall₂.cons ⟨hr, hP _ (by simp)⟩ (ih fun v hv => hP v (by simp [hv]))

/-- The first append opens the writer: the file becomes header plus body. -/
theorem writerAppend_fresh (v : FbValue) :
    writerAppend freshSys v
      = writerAppend ⟨⟨true, u64le 0 ++ [], 0⟩, ([] : List FbKind)⟩ v := rfl

/-- Closed form of appending a non-empty sequence to a fresh list. -/
theorem appendAll_fresh (v : FbValue) (vs : List FbValue) :
    appendAll freshSys (v :: vs)
      = ⟨⟨true, u64le (v :: vs).length ++ entriesFlat (stageAll [] (v :: vs)).2,
            (v :: vs).length⟩,
         (stageAll [] (v :: vs)).1⟩ := by
  have h1 : appendAll freshSys (v :: vs)
      = appendAll ⟨⟨true, u64le 0 ++ [], 0⟩, ([] : List FbKind)⟩ (v :: vs) := by
    simp only [appendAll, List.foldl_cons]
    rw [show writerAppend freshSys v
        = writerAppend ⟨⟨true, u64le 0 ++ [], 0⟩, ([] : List FbKind)⟩ v from rfl]
  rw [h1, appendAll_open]
  simp

/-- Spill-file layout (claim C3 core): after the appends the file is the
8-byte little-endian count followed by one `kind | length | payload` entry
per value. -/
theorem spill_layout_core (vs : List FbValue) (hne : vs ≠ []) :
    (appendAll freshSys vs).writer.file
        = u64le vs.length ++ entriesFlat (stageAll [] vs).2 ∧
      (appendAll freshSys vs).writer.length = vs.length := by
  cases vs with
  | nil => exact absurd rfl hne
  | cons v vs => rw [appendAll_fresh]; exact ⟨rfl, rfl⟩

/-- Spill-list read-back: the reader returns the appended values in order
and its `Len()` is the append count. -/
theorem spill_roundtrip_core (vs : List FbValue)
    (hn : vs.length < 2 ^ 64)
    (hpay : ∀ v ∈ vs, (gobEncode v).length < 2 ^ 64) :
    iterAll (appendAll freshSys vs) = vs ∧
      iterLen (appendAll freshSys vs) = vs.length := by
  cases vs with
  | nil => exact ⟨rfl, rfl⟩
  | cons v vs =>
    rw [appendAll_fresh]
    set n := (v :: vs).length with hn_def
    set entries := (stageAll [] (v :: vs)).2 with hentries
    set cat := (stageAll [] (v :: vs)).1 with hcat
    have hnz : n ≠ 0 := by simp [hn_def]
    obtain ⟨hnodup, _, hF⟩ := stageAll_sound (v :: vs) [] List.nodup_nil
    have hF2 : List.Forall₂ (GoodEntry cat) entries (v :: vs) := by
      refine (forall₂_and_right hF hpay).imp ?_
      rintro e w ⟨⟨h1, h2, h3⟩, h4⟩
      exact ⟨h1, h2, h3, by rw [h2]; exact h4⟩
    have hlen8 := u64le_length n
    have hdrop : (u64le n ++ entriesFlat entries).drop 8 = entriesFlat entries :=
      u64le_drop8 n _
    have hfuel : entries.length ≤ (u64le n ++ entriesFlat entries).length + 1 := by
      have := length_le_entriesFlat entries
      simp [List.length_append, hlen8]
      omega
    constructor
    · simp only [iterAll, newReader, if_pos hnz]
      exact readAllFuel_spec cat entries (v :: vs) _ _ 8 hF2 hdrop hfuel
    · simp only [iterLen, newReader, readerLen, if_pos hnz]
      rw [← hlen8, List.take_left, leVal_u64le _ hn]

/-! ## Journal, watches and the dispatch loop (`journal.go`)

Event payloads beyond the record kind never influence staging, matching or
dispatch, so events are embedded as ids, action codes and kinds. -/

/-- Event action codes (the `var` block of journal.go). -/
def ActStarted : Nat := 0x00

/-- `Parity = 0x01`. -/
def ActParity : Nat := 0x01

/-- `Error = 0x02`. -/
def ActError : Nat := 0x02

/-- `End = 0x04`. -/
def ActEnd : Nat := 0x04

/-- `Created = 0x10`. -/
def ActCreated : Nat := 0x10

/-- `Updated = 0x20`. -/
def ActUpdated : Nat := 0x20

/-- `Deleted = 0x40`. -/
def ActDeleted : Nat := 0x40

/-- A decoded model event: id, action, kind of the subject model and, for
updates, kind of the post-image. -/
structure EvF where
  id : Nat
  action : Nat
  kind : String
  ukind : String := ""
  deriving DecidableEq, Repr

/-- One object of a staged spill list.  journal.go stages `Event, model, ..`
pairs, with a second model appended for updates. -/
inductive JItem
  | ev (id : Nat) (action : Nat)
  | model (kind : String)
  deriving DecidableEq, Repr

/-- Modelled from the spec: `Event.append` (referenced by client.go, not in
the snapshot) — stage the event, its model, and for updates the post-image,
as consecutive spill-list objects. -/
def block (e : EvF) : List JItem :=
  JItem.ev e.id e.action :: JItem.model e.kind ::
    (if e.action = ActUpdated then [JItem.model e.ukind] else [])

/-- A staged iterator carrying the given events in order. -/
def itrOf (es : List EvF) : List JItem := (es.map block).flatten

/-- Handler callbacks (the `EventHandler` interface). -/
inductive Cb
  | start (watchID : Nat)
  | parity
  | created (e : EvF)
  | updated (e : EvF)
  | deleted (e : EvF)
  | error (msg : String)
  | endW
  deriving DecidableEq, Repr

/-- The `switch event.Action` body of `Watch.Start` for one matched event;
an event whose kind does not match the watch is skipped silently
(`if !w.Match(event.Model) { continue }`). -/
def eventCbs (wk : String) (e : EvF) : List Cb :=
  if e.kind ≠ wk then []
  else if e.action = ActCreated then [Cb.created e]
  else if e.action = ActUpdated then [Cb.updated e]
  else if e.action = ActDeleted then [Cb.deleted e]
  else [Cb.error "unknown action"]

/-- The inner loop of `Watch.Start` over one iterator: `Watch.next` reads an
event object, then its model, then (for updates) the post-image; a malformed
stream reports an error to the handler and breaks the iterator, an exhausted
stream breaks silently. -/
def dispatchItr (wk : String) : List JItem → List Cb
  | [] => []
  | JItem.ev id act :: tail =>
    match tail with
    | JItem.model k :: tail2 =>
      if act = ActUpdated then
        match tail2 with
        | JItem.model k2 :: tail3 =>
          eventCbs wk ⟨id, act, k, k2⟩ ++ dispatchItr wk tail3
        | _ => [Cb.error "model expected after event."]
      else eventCbs wk ⟨id, act, k, ""⟩ ++ dispatchItr wk tail2
    | _ => [Cb.error "model expected after event."]
  | JItem.model _ :: _ => [Cb.error "model expected after event."]

/-- The queue-draining loop of `Watch.Start`: dispatch each iterator, bump
`count`, and emit `Parity` exactly when `count == 1` (right after the first
iterator). -/
def runLoop (wk : String) (count : Nat) : List (List JItem) → List Cb
  | [] => []
  | itr :: rest =>
    dispatchItr wk itr ++
      (if count + 1 = 1 then [Cb.parity] else []) ++
      runLoop wk (count + 1) rest

/-- Callback trace of one execution of `Watch.Start`: the synchronous
`Started`, the queue drain over the iterators delivered before the queue
closed, and the deferred `End`. -/
def watchTrace (id : Nat) (wk : String) (itrs : List (List JItem)) : List Cb :=
  Cb.start id :: (runLoop wk 0 itrs ++ [Cb.endW])

/-- A registered watch: id, watched kind, bounded iterator queue, state. -/
structure WatchB where
  id : Nat
  kind : String
  queue : List (List JItem)
  started : Bool := false
  done : Bool := false
  deriving DecidableEq, Repr

/-- The queue bound: `make(chan fb.Iterator, 250)` in `Journal.Watch`. -/
def queueCapacity : Nat := 250

/-- `Watch.notify`: the non-blocking `select` — enqueue the iterator when
the channel has room, otherwise call `handler.Error` with the overflow
reason and drop the iterator.  Either way the function returns at once and
the watch state machine is untouched. -/
def notify (w : WatchB) (itr : List JItem) : WatchB × List Cb :=
  if w.queue.length < queueCapacity then ({ w with queue := w.queue ++ [itr] }, [])
  else (w, [Cb.error "full queue, event discarded"])

/-- The journal: registered watches, the staged object list, and the two
serial-number pools (key 0 for watch ids, key 1 for event ids). -/
structure JournalSt where
  watchList : List WatchB
  staged : List JItem
  eventSerial : Nat
  watchSerial : Nat
  deriving DecidableEq, Repr

/-- `Journal.hasWatch`: some registered watch matches the model's kind. -/
def hasWatch (j : JournalSt) (kind : String) : Bool :=
  j.watchList.any fun w => w.kind == kind

/-- `Journal.committed`: hand every watch a fresh iterator over the staged
list, then reset the staged list. -/
def jCommitted (j : JournalSt) : JournalSt :=
  { j with watchList := j.watchList.map fun w => (notify w j.staged).1
           staged := [] }

/-- `Journal.Watch`: allocate the next watch id and register a watch with
an empty queue. -/
def jWatch (j : JournalSt) (kind : String) : JournalSt × Nat :=
  ({ j with watchSerial := j.watchSerial + 1
            watchList := j.watchList ++ [⟨j.watchSerial + 1, kind, [], false, false⟩] },
   j.watchSerial + 1)

/-- `Journal.Created`: return at once when no registered watch matches the
kind; otherwise allocate an event id, stage the event and its model, and
forward when `committed`. -/
def jCreated (j : JournalSt) (kind : String) (committed : Bool) : JournalSt :=
  if hasWatch j kind then
    let j1 : JournalSt :=
      { j with eventSerial := j.eventSerial + 1
               staged := j.staged ++
                 [JItem.ev (j.eventSerial + 1) ActCreated, JItem.model kind] }
    if committed then jCommitted j1 else j1
  else j

/-- `Journal.Updated` (stages pre-image and post-image). -/
def jUpdated (j : JournalSt) (kind ukind : String) (committed : Bool) : JournalSt :=
  if hasWatch j kind then
    let j1 : JournalSt :=
      { j with eventSerial := j.eventSerial + 1
               staged := j.staged ++
                 [JItem.ev (j.eventSerial + 1) ActUpdated, JItem.model kind,
                  JItem.model ukind] }
    if committed then jCommitted j1 else j1
  else j

/-- `Journal.Deleted`. -/
def jDeleted (j : JournalSt) (kind : String) (committed : Bool) : JournalSt :=
  if hasWatch j kind then
    let j1 : JournalSt :=
      { j with eventSerial := j.eventSerial + 1
               staged := j.staged ++
                 [JItem.ev (j.eventSerial + 1) ActDeleted, JItem.model kind] }
    if committed then jCommitted j1 else j1
  else j

/-! ## Transactions (`client.go`) -/

/-- Transaction state: ended flag, outcome of the underlying SQL
transaction, the in-tx staged list, and every staged list handed to the
journal (`Journal.Report` receptions). -/
structure TxSt where
  ended : Bool
  committed : Bool
  rolledBack : Bool
  staged : List JItem
  reported : List (List JItem)
  deriving DecidableEq, Repr

/-- A freshly begun transaction (`Client.Begin`). -/
def tx0 : TxSt := ⟨false, false, false, [], []⟩

/-- Transaction operations: a write that stages an event, a commit whose
underlying `sql.Tx.Commit` succeeds or fails, and a rollback. -/
inductive TxOp
  | write (e : EvF)
  | commit (ok : Bool)
  | endTx
  deriving DecidableEq, Repr

/-- One transaction step.  `Tx.Insert/Update/Delete` stage a block after
the underlying write succeeds (writes on an ended transaction fail in the
store and stage nothing).  `Tx.Commit` is a no-op when already ended;
otherwise it marks the transaction ended and, only when the underlying
commit succeeded, hands the non-empty staged list to the journal
(`Tx.report`, called from the deferred block when `err == nil`).  `Tx.End`
is a no-op when already ended; otherwise it rolls back and discards the
staged list. -/
def txStep (s : TxSt) : TxOp → TxSt
  | .write e => if s.ended then s else { s with staged := s.staged ++ block e }
  | .commit ok =>
    if s.ended then s
    else if ok then
      { s with ended := true, committed := true
               reported :=
                 if s.staged.length ≠ 0 then s.reported ++ [s.staged] else s.reported
               staged := [] }
    else { s with ended := true }
  | .endTx =>
    if s.ended then s else { s with ended := true, rolledBack := true, staged := [] }

/-- Run a transaction from `Begin`. -/
def txRun (ops : List TxOp) : TxSt := ops.foldl txStep tx0

/-- Every handler callback this transaction can ever cause at a watch of
kind `wk`: the journal fans out exactly the reported lists, and the watch
dispatch loop turns each into callbacks. -/
def txCallbacks (s : TxSt) (wk : String) : List Cb :=
  (s.reported.map (dispatchItr wk)).flatten

/-! ## Table CRUD over the relational store (`table.go`)

The representative model is the repository tests' `TestObject` shape cut to
its essence: an integer primary key plus one mutable column, on a table
that declares no unique group beyond the primary key. -/

/-- A row of the representative table. -/
structure MRow where
  pk : Nat
  name : String
  deriving DecidableEq, Repr

/-- Errors of the model package relevant here (`NotFound` is referenced by
client.go/table.go; `ConstraintViolation` is sqlite's `ErrConstraint`). -/
inductive DbErr
  | notFound
  | constraint
  deriving DecidableEq, Repr

instance {ε α : Type} [DecidableEq ε] [DecidableEq α] : DecidableEq (Except ε α)
  | .ok a, .ok b =>
    if h : a = b then .isTrue (by rw [h])
    else .isFalse (by intro hh; cases hh; exact h rfl)
  | .error a, .error b =>
    if h : a = b then .isTrue (by rw [h])
    else .isFalse (by intro hh; cases hh; exact h rfl)
  | .ok _, .error _ => .isFalse (by intro h; cases h)
  | .error _, .ok _ => .isFalse (by intro h; cases h)

/-- Modelled from the spec: the store's parameterized INSERT — sqlite
reports a constraint violation when the new row collides on the primary
key. -/
def execInsert (st : List MRow) (m : MRow) : Except DbErr (List MRow) :=
  if st.any (fun r => r.pk == m.pk) then .error .constraint else .ok (st ++ [m])

/-- Modelled from the spec: the store's UPDATE of the mutable columns by
primary key, returning the new rows and the affected-row count. -/
def execUpdate (st : List MRow) (m : MRow) : List MRow × Nat :=
  (st.map fun r => if r.pk == m.pk then { r with name := m.name } else r,
   (st.filter fun r => r.pk == m.pk).length)

/-- Modelled from the spec: the store's DELETE by primary key. -/
def execDelete (st : List MRow) (m : MRow) : List MRow × Nat :=
  (st.filter fun r => ¬ r.pk == m.pk,
   (st.filter fun r => r.pk == m.pk).length)

/-- `Table.Update`: execute the update; zero affected rows fail with
`NotFound`. -/
def tableUpdate (st : List MRow) (m : MRow) : Except DbErr (List MRow) :=
  let r := execUpdate st m
  if r.2 = 0 then .error .notFound else .ok r.1

/-- `Table.Insert`: execute the insert; on sqlite's constraint violation
fall back to `Table.Update` on the same model and return its result;
surface any other error. -/
def tableInsert (st : List MRow) (m : MRow) : Except DbErr (List MRow) :=
  match execInsert st m with
  | .ok st' => .ok st'
  | .error e => if e = .constraint then tableUpdate st m else .error e

/-- `Table.Delete`: execute the delete; zero affected rows is not an
error. -/
def tableDelete (st : List MRow) (m : MRow) : Except DbErr (List MRow) :=
  .ok (execDelete st m).1

/-- `Table.Get` by primary key. -/
def tableGet (st : List MRow) (m : MRow) : Except DbErr MRow :=
  match st.find? (fun r => r.pk == m.pk) with
  | some r => .ok r
  | none => .error .notFound

/-- The reflected table/kind name of `MRow` (`Table.Name`). -/
def mrowKind : String := "MRow"

/-- `Tx.Delete`: read the row first.  When the read fails, both the
`errors.As(err, &NotFound)` branch and the fall-through execute a bare
`return`, so the error — `NotFound` included — is returned unchanged and
nothing is staged.  When the read succeeds, delete and stage a deleted
event. -/
def txDelete (serial : Nat) (store : List MRow) (staged : List JItem) (m : MRow) :
    (List MRow × List JItem) × Option DbErr :=
  match tableGet store m with
  | .error e => ((store, staged), some e)
  | .ok _ =>
    match tableDelete store m with
    | .error e => ((store, staged), some e)
    | .ok store' =>
      ((store', staged ++ block ⟨serial + 1, ActDeleted, mrowKind, ""⟩), none)

/-! ## Field tags and detail levels (`table.go` `Field`) -/

/-- A model field: its name and its comma-split `sql` tag options. -/
structure FieldTag where
  fname : String
  tag : List String
  deriving DecidableEq, Repr

/-- Whitespace for `strings.TrimSpace`. -/
def isWS (c : Char) : Bool := c = ' ' ∨ c = '\t' ∨ c = '\n' ∨ c = '\r'

/-- `strings.TrimSpace`: strip leading and trailing whitespace. -/
def trimStr (s : String) : String :=
  ⟨((s.toList.dropWhile isWS).reverse.dropWhile isWS).reverse⟩

/-- `Field.hasOpt`: exact option match after trimming. -/
def hasOpt (tag : List String) (name : String) : Bool :=
  tag.any fun opt => trimStr opt == name

/-- `Field.Pk`: the unanchored regex `(pk)((\()(.+)(\)))?` matches an
option whenever it contains `pk` as a substring. -/
def isPk (tag : List String) : Bool :=
  tag.any fun opt => decide (("pk".toList).IsInfix opt.toList)

/-- `Field.Key`. -/
def isKey (tag : List String) : Bool := hasOpt tag "key"

/-- `MaxDetail = 10`. -/
def MaxDetail : Nat := 10

/-- The option name `d<N>`. -/
def dOpt (n : Nat) : String := "d" ++ toString n

/-- The scan `for n := 0; n < MaxDetail; n++` of `Field.Detail`: return the
first `n` (counting up from `start`) whose `d<n>` option is present, within
the remaining fuel. -/
def detailLoop (tag : List String) : Nat → Nat → Option Nat
  | _, 0 => none
  | start, fuel + 1 =>
    if hasOpt tag (dOpt start) then some start else detailLoop tag (start + 1) fuel

/-- `Field.Detail`: the first matching `d0 … d9` level wins; otherwise
PK/key fields default to level 0 and all other fields to level 1. -/
def fieldDetail (tag : List String) : Nat :=
  match detailLoop tag 0 MaxDetail with
  | some n => n
  | none => if isPk tag || isKey tag then 0 else 1

/-- `Field.MatchDetail`. -/
def matchDetail (tag : List String) (level : Nat) : Bool :=
  fieldDetail tag ≤ level

/-- `ListOptions.Fields`: the fields whose detail level is within the
requested `Detail` — exactly those are SELECTed by `List`/`Find`. -/
def optionsFields (detail : Nat) (fields : List FieldTag) : List FieldTag :=
  fields.filter fun f => matchDetail f.tag detail

/-! ## Field staging: `Field.Pull` / `Field.Push` (`table.go`)

The staged value universe mirrors the field kinds of the repository's test
model: string, int, bool, a JSON-encoded struct (`TestEncoded{Name string}`),
a nil-able `[]string` slice and a nil-able `map[string]int`.  The JSON
encoding itself is `encoding/json`, which is not part of the repository;
it is modelled from the spec ("structs, slices, and maps are JSON-encoded
strings") as an executable encoder with a verified parser. -/

/-- A Go value held by a model field. `none` models a nil slice/map. -/
inductive FVal
  | fstr (s : String)
  | fint (n : Int)
  | fbool (b : Bool)
  | fstruct (name : String)
  | fslice (xs : Option (List String))
  | fmap (m : Option (List (String × Int)))
  deriving DecidableEq, Repr

/-- JSON string escaping of the two metacharacters the encoder must touch
in this fragment. -/
def escChars : List Char → List Char
  | [] => []
  | c :: rest =>
    if c = '\\' ∨ c = '"' then '\\' :: c :: escChars rest else c :: escChars rest

/-- A JSON string literal. -/
def quoteChars (s : String) : List Char := '"' :: (escChars s.toList ++ ['"'])

/-- The decimal digit characters. -/
def digitChar : Nat → Char
  | 0 => '0' | 1 => '1' | 2 => '2' | 3 => '3' | 4 => '4'
  | 5 => '5' | 6 => '6' | 7 => '7' | 8 => '8' | 9 => '9'
  | _ => '?'

/-- Decimal digits of `n`, most significant first (fuel ≥ n keeps the
recursion structural). -/
def natDigitsAux : Nat → Nat → List Nat
  | 0, _ => []
  | fuel + 1, n => if n < 10 then [n] else natDigitsAux fuel (n / 10) ++ [n % 10]

/-- Decimal digits of `n`. -/
def natDigits (n : Nat) : List Nat := natDigitsAux (n + 1) n

/-- Decimal rendering of `n`. -/
def natChars (n : Nat) : List Char := (natDigits n).map digitChar

/-- Decimal rendering of an integer (JSON number). -/
def intChars (n : Int) : List Char :=
  if n < 0 then '-' :: natChars (-n).toNat else natChars n.toNat

/-- Comma-separated rendering of a sequence. -/
def commaSep {α : Type} (enc : α → List Char) : List α → List Char
  | [] => []
  | [x] => enc x
  | x :: y :: rest => enc x ++ ',' :: commaSep enc (y :: rest)

/-- JSON array of strings (`json.Marshal` of a non-nil `[]string`). -/
def sliceChars (xs : List String) : List Char :=
  '[' :: (commaSep quoteChars xs ++ [']'])

/-- One JSON object member `"key":int`. -/
def mapEntryChars (kv : String × Int) : List Char :=
  quoteChars kv.1 ++ ':' :: intChars kv.2

/-- JSON object (`json.Marshal` of a non-nil `map[string]int`). -/
def mapChars (m : List (String × Int)) : List Char :=
  '\x7b' :: (commaSep mapEntryChars m ++ ['\x7d'])

/-- JSON object for the one-field struct (`json.Marshal` of
`TestEncoded{Name string}`). -/
def structChars (name : String) : List Char :=
  '\x7b' :: ("\"Name\":".toList ++ quoteChars name ++ ['\x7d'])

/-- Modelled from the spec: `json.Marshal` of the struct field. -/
def jsonStruct (name : String) : String := ⟨structChars name⟩

/-- Modelled from the spec: `json.Marshal` of a non-nil slice field. -/
def jsonSlice (xs : List String) : String := ⟨sliceChars xs⟩

/-- Modelled from the spec: `json.Marshal` of a non-nil map field. -/
def jsonMap (m : List (String × Int)) : String := ⟨mapChars m⟩

/-- Parse the body of a JSON string literal up to its closing quote,
undoing the escaping. -/
def parseQuotedBody : List Char → Option (List Char × List Char)
  | [] => none
  | c :: rest =>
    if c = '\\' then
      match rest with
      | [] => none
      | d :: rest2 => (parseQuotedBody rest2).map fun p => (d :: p.1, p.2)
    else if c = '"' then some ([], rest)
    else (parseQuotedBody rest).map fun p => (c :: p.1, p.2)

/-- Parse a JSON string literal. -/
def parseQuoted : List Char → Option (String × List Char)
  | [] => none
  | c :: rest =>
    if c = '"' then (parseQuotedBody rest).map fun p => (⟨p.1⟩, p.2) else none

/-- Digit value of a character, if it is a decimal digit. -/
def charDigit (c : Char) : Option Nat :=
  if c = '0' then some 0 else if c = '1' then some 1
  else if c = '2' then some 2 else if c = '3' then some 3
  else if c = '4' then some 4 else if c = '5' then some 5
  else if c = '6' then some 6 else if c = '7' then some 7
  else if c = '8' then some 8 else if c = '9' then some 9 else none

/-- Greedily take leading digits. -/
def takeDigits : List Char → List Nat × List Char
  | [] => ([], [])
  | c :: rest =>
    match charDigit c with
    | some d => let p := takeDigits rest; (d :: p.1, p.2)
    | none => ([], c :: rest)

/-- Value of most-significant-first digits. -/
def digitsVal (ds : List Nat) : Nat := ds.foldl (fun acc d => 10 * acc + d) 0

/-- Parse a decimal natural. -/
def parseNat10 (cs : List Char) : Option (Nat × List Char) :=
  let p := takeDigits cs
  if p.1.isEmpty then none else some (digitsVal p.1, p.2)

/-- Parse a JSON integer. -/
def parseInt10 : List Char → Option (Int × List Char)
  | [] => none
  | c :: rest =>
    if c = '-' then (parseNat10 rest).map fun p => (-(p.1 : Int), p.2)
    else (parseNat10 (c :: rest)).map fun p => ((p.1 : Int), p.2)

/-- After an array member: close on `]`, continue past `,`. -/
def sepCont (f : List Char → Option (List String × List Char)) (s : String) :
    List Char → Option (List String × List Char)
  | ']' :: r2 => some ([s], r2)
  | ',' :: r2 => (f r2).map fun p => (s :: p.1, p.2)
  | _ => none

/-- Parse the members of a non-empty JSON string array up to `]`. -/
def parseSliceItems : Nat → List Char → Option (List String × List Char)
  | 0, _ => none
  | fuel + 1, cs => (parseQuoted cs).bind fun p => sepCont (parseSliceItems fuel) p.1 p.2

/-- Parse a JSON array of strings (`json.Unmarshal` into `[]string`). -/
def parseSlice : List Char → Option (List String × List Char)
  | '[' :: ']' :: r2 => some (([] : List String), r2)
  | '[' :: r => parseSliceItems (r.length + 1) r
  | _ => none

/-- After an object value: close on `\x7d`, continue past `,`. -/
def mapValCont (f : List Char → Option (List (String × Int) × List Char))
    (k : String) (v : Int) :
    List Char → Option (List (String × Int) × List Char)
  | '\x7d' :: r4 => some ([(k, v)], r4)
  | ',' :: r4 => (f r4).map fun p => ((k, v) :: p.1, p.2)
  | _ => none

/-- After an object key: expect `:` and the integer value. -/
def mapKeyCont (f : List Char → Option (List (String × Int) × List Char))
    (k : String) :
    List Char → Option (List (String × Int) × List Char)
  | ':' :: r2 => (parseInt10 r2).bind fun q => mapValCont f k q.1 q.2
  | _ => none

/-- Parse the members of a non-empty JSON object up to `\x7d`. -/
def parseMapItems : Nat → List Char → Option (List (String × Int) × List Char)
  | 0, _ => none
  | fuel + 1, cs => (parseQuoted cs).bind fun p => mapKeyCont (parseMapItems fuel) p.1 p.2

/-- Parse a JSON object (`json.Unmarshal` into `map[string]int`). -/
def parseMap : List Char → Option (List (String × Int) × List Char)
  | '\x7b' :: '\x7d' :: r2 => some (([] : List (String × Int)), r2)
  | '\x7b' :: r => parseMapItems (r.length + 1) r
  | _ => none

/-- Drop an expected literal off the front. -/
def dropLit : List Char → List Char → Option (List Char)
  | [], cs => some cs
  | _ :: _, [] => none
  | l :: ls, c :: cs => if c = l then dropLit ls cs else none

/-- The closing brace of the struct object. -/
def structEnd (name : String) : List Char → Option (String × List Char)
  | '\x7d' :: r3 => some (name, r3)
  | _ => none

/-- Parse the one-field struct object (`json.Unmarshal` into
`TestEncoded`). -/
def parseStruct (cs : List Char) : Option (String × List Char) :=
  (dropLit ("\x7b\"Name\":".toList) cs).bind fun r =>
    (parseQuoted r).bind fun p => structEnd p.1 p.2

/-- The two staging slots of a `Field` (string, int64). -/
structure Staging where
  str : String
  int : Int
  deriving DecidableEq, Repr

/-- Staging slots of a freshly reflected field (zero values). -/
def freshStaging : Staging := ⟨"", 0⟩

/-- `Field.Pull`: stage the model value.  Struct/slice/map fields marshal
into the string slot, a nil slice writes `[]` and a nil map writes `\x7b\x7d`
wholesale; strings use the string slot; a boolean sets the int slot to 1
only when true (otherwise the slot keeps its prior value — zero on a fresh
field); integers use the int slot, bumped first for `incremented`
columns. -/
def pull (incremented : Bool) (v : FVal) (st : Staging) : Staging :=
  match v with
  | .fstruct name => { st with str := jsonStruct name }
  | .fslice (some xs) => { st with str := jsonSlice xs }
  | .fslice none => { st with str := "[]" }
  | .fmap (some m) => { st with str := jsonMap m }
  | .fmap none => { st with str := "\x7b\x7d" }
  | .fstr s => { st with str := s }
  | .fbool b => if b then { st with int := 1 } else st
  | .fint n => { st with int := if incremented then n + 1 else n }

/-- `Field.Push`: restore the model value from the staging slots.  Encoded
fields unmarshal the string slot into a fresh instance (an empty slot or a
decode failure leaves the old value); strings copy the string slot;
booleans read the int slot as `≠ 0`; integers copy the int slot. -/
def push (v : FVal) (st : Staging) : FVal :=
  match v with
  | .fstruct old =>
    if st.str = "" then .fstruct old
    else
      match parseStruct st.str.toList with
      | some (name, []) => .fstruct name
      | _ => .fstruct old
  | .fslice old =>
    if st.str = "" then .fslice old
    else
      match parseSlice st.str.toList with
      | some (xs, []) => .fslice (some xs)
      | _ => .fslice old
  | .fmap old =>
    if st.str = "" then .fmap old
    else
      match parseMap st.str.toList with
      | some (m, []) => .fmap (some m)
      | _ => .fmap old
  | .fstr _ => .fstr st.str
  | .fbool _ => .fbool (st.int ≠ 0)
  | .fint _ => .fint st.int

/-- What a stage/unstage round trip actually restores: everything except
that a nil slice comes back as the empty slice and a nil map as the empty
map (`json.Unmarshal` of `[]`/`\x7b\x7d` allocates an empty collection). -/
def normalizeNil : FVal → FVal
  | .fslice none => .fslice (some [])
  | .fmap none => .fmap (some [])
  | v => v

/-! ## Round-trip lemmas for the modelled JSON codec -/

theorem string_mk_toList (s : String) : (⟨s.toList⟩ : String) = s := rfl

theorem parseQuotedBody_esc (d : Char) (rest : List Char) :
    parseQuotedBody ('\\' :: d :: rest)
      = (parseQuotedBody rest).map fun p => (d :: p.1, p.2) := rfl

theorem parseQuotedBody_quote (rest : List Char) :
    parseQuotedBody ('"' :: rest) = some ([], rest) := by
  unfold parseQuotedBody
  rw [if_neg (by decide), if_pos rfl]

theorem parseQuotedBody_plain (c : Char) (rest : List Char)
    (h1 : c ≠ '\\') (h2 : c ≠ '"') :
    parseQuotedBody (c :: rest)
      = (parseQuotedBody rest).map fun p => (c :: p.1, p.2) := by
  cases rest with
  | nil => simp only [parseQuotedBody, if_neg h1, if_neg h2]
  | cons d r => simp only [parseQuotedBody, if_neg h1, if_neg h2]

theorem parseQuotedBody_escChars (l : List Char) (rest : List Char) :
    parseQuotedBody (escChars l ++ '"' :: rest) = some (l, rest) := by
  induction l with
  | nil => exact parseQuotedBody_quote rest
  | cons c l ih =>
    by_cases hc : c = '\\' ∨ c = '"'
    · have he : escChars (c :: l) = '\\' :: c :: escChars l := by
        have h0 : escChars (c :: l)
            = if c = '\\' ∨ c = '"' then '\\' :: c :: escChars l else c :: escChars l := rfl
        rw [h0, if_pos hc]
      rw [he, List.cons_append, List.cons_append, parseQuotedBody_esc, ih]
      rfl
    · have hc' := hc
      push_neg at hc'
      have he : escChars (c :: l) = c :: escChars l := by
        have h0 : escChars (c :: l)
            = if c = '\\' ∨ c = '"' then '\\' :: c :: escChars l else c :: escChars l := rfl
        rw [h0, if_neg hc]
      rw [he, List.cons_append, parseQuotedBody_plain c _ hc'.1 hc'.2, ih]
      rfl

theorem parseQuoted_quoteChars (s : String) (rest : List Char) :
    parseQuoted (quoteChars s ++ rest) = some (s, rest) := by
  show parseQuoted ('"' :: ((escChars s.toList ++ ['"']) ++ rest)) = some (s, rest)
  rw [List.append_assoc]
  simp only [parseQuoted, if_pos rfl, List.singleton_append]
  rw [parseQuotedBody_escChars]
  simp [string_mk_toList]

theorem quoteChars_ne_nil (s : String) : quoteChars s ≠ [] := by
  simp [quoteChars]

theorem charDigit_digitChar (d : Nat) (h : d < 10) : charDigit (digitChar d) = some d := by
  interval_cases d <;> decide

theorem digitChar_ne_minus (d : Nat) (h : d < 10) : digitChar d ≠ '-' := by
  interval_cases d <;> decide

theorem natDigitsAux_lt (fuel : Nat) :
    ∀ n, ∀ d ∈ natDigitsAux fuel n, d < 10 := by
  induction fuel with
  | zero => intro n d hd; simp [natDigitsAux] at hd
  | succ fuel ih =>
    intro n d hd
    by_cases h : n < 10
    · simp [natDigitsAux, h] at hd; omega
    · simp only [natDigitsAux, if_neg h, List.mem_append, List.mem_singleton] at hd
      rcases hd with hd | hd
      · exact ih _ _ hd
      · omega

theorem digitsVal_append (ds : List Nat) (d : Nat) :
    digitsVal (ds ++ [d]) = 10 * digitsVal ds + d := by
  simp [digitsVal, List.foldl_append]

theorem digitsVal_natDigitsAux (fuel : Nat) :
    ∀ n, n ≤ fuel → digitsVal (natDigitsAux fuel n) = n := by
  induction fuel with
  | zero => intro n h; interval_cases n; simp [natDigitsAux, digitsVal]
  | succ fuel ih =>
    intro n h
    by_cases h10 : n < 10
    · simp [natDigitsAux, h10, digitsVal]
    · have hdiv : n / 10 ≤ fuel := by
        have := Nat.div_lt_self (by omega : 0 < n) (by norm_num : 1 < 10)
        omega
      simp only [natDigitsAux, if_neg h10, digitsVal_append, ih _ hdiv]
      omega

theorem natDigits_ne_nil (n : Nat) : natDigits n ≠ [] := by
  simp only [natDigits, natDigitsAux]
  split <;> simp

theorem digitsVal_natDigits (n : Nat) : digitsVal (natDigits n) = n :=
  digitsVal_natDigitsAux (n + 1) n (by omega)

/-- The continuation after a rendered number must not begin with a digit
for the greedy number parser to stop there. -/
def headNoDigit (cs : List Char) : Prop :=
  ∀ c, cs.head? = some c → charDigit c = none

theorem takeDigits_digits (ds : List Nat) (rest : List Char)
    (hds : ∀ d ∈ ds, d < 10) (hrest : headNoDigit rest) :
    takeDigits (ds.map digitChar ++ rest) = (ds, rest) := by
  induction ds with
  | nil =>
    cases rest with
    | nil => rfl
    | cons c r =>
      have := hrest c (by simp)
      simp [takeDigits, this]
  | cons d ds ih =>
    have hd := hds d (by simp)
    simp only [List.map_cons, List.cons_append, takeDigits, charDigit_digitChar d hd,
      List.append_eq]
    rw [ih (fun x hx => hds x (by simp [hx]))]

theorem parseNat10_natChars (n : Nat) (rest : List Char) (hrest : headNoDigit rest) :
    parseNat10 (natChars n ++ rest) = some (n, rest) := by
  simp only [parseNat10, natChars]
  rw [takeDigits_digits (natDigits n) rest (fun d hd => natDigitsAux_lt _ _ d hd) hrest]
  simp [digitsVal_natDigits, List.isEmpty_iff, natDigits_ne_nil n]

theorem parseInt10_intChars (n : Int) (rest : List Char) (hrest : headNoDigit rest) :
    parseInt10 (intChars n ++ rest) = some (n, rest) := by
  by_cases hneg : n < 0
  · simp only [intChars, if_pos hneg, List.cons_append, parseInt10, if_pos rfl]
    rw [parseNat10_natChars _ _ hrest]
    simp
    omega
  · obtain ⟨d, ds, hds⟩ : ∃ d ds, natDigits n.toNat = d :: ds := by
      cases h : natDigits n.toNat with
      | nil => exact absurd h (natDigits_ne_nil _)
      | cons d ds => exact ⟨d, ds, rfl⟩
    have hd10 : d < 10 := natDigitsAux_lt _ _ d (by rw [show natDigitsAux (n.toNat + 1) n.toNat = natDigits n.toNat from rfl, hds]; simp)
    have hpn := parseNat10_natChars n.toNat rest hrest
    rw [natChars, hds] at hpn
    simp only [intChars, if_neg hneg, natChars, hds, List.map_cons, List.cons_append,
      parseInt10, if_neg (digitChar_ne_minus d hd10)]
    simp only [List.map_cons, List.cons_append] at hpn
    rw [hpn]
    simp
    omega

theorem sepCont_bracket (f : List Char → Option (List String × List Char))
    (s : String) (r : List Char) : sepCont f s (']' :: r) = some ([s], r) := rfl

theorem sepCont_comma (f : List Char → Option (List String × List Char))
    (s : String) (r : List Char) :
    sepCont f s (',' :: r) = (f r).map fun p => (s :: p.1, p.2) := rfl

theorem commaSep_cons {α : Type} (enc : α → List Char) (x : α) (xs : List α) :
    ∃ s, commaSep enc (x :: xs) = enc x ++ s := by
  cases xs with
  | nil => exact ⟨[], by simp [commaSep]⟩
  | cons y ys => exact ⟨',' :: commaSep enc (y :: ys), rfl⟩

theorem commaSep_length_ge {α : Type} (enc : α → List Char)
    (h1 : ∀ x, 1 ≤ (enc x).length) :
    ∀ xs : List α, xs.length ≤ (commaSep enc xs).length := by
  intro xs
  induction xs with
  | nil => simp [commaSep]
  | cons x xs ih =>
    cases xs with
    | nil => simpa [commaSep] using h1 x
    | cons y ys =>
      simp only [commaSep, List.length_append, List.length_cons]
      have := h1 x
      simp only [List.length_cons] at ih ⊢
      omega

theorem parseSliceItems_spec (xs : List String) :
    ∀ (x : String) (fuel : Nat) (rest : List Char),
      xs.length < fuel →
      parseSliceItems fuel (commaSep quoteChars (x :: xs) ++ (']' :: rest))
        = some (x :: xs, rest) := by
  induction xs with
  | nil =>
    intro x fuel rest hf
    cases fuel with
    | zero => simp at hf
    | succ f =>
      show parseSliceItems (f + 1) (quoteChars x ++ (']' :: rest)) = some ([x], rest)
      simp only [parseSliceItems]
      rw [parseQuoted_quoteChars]
      exact sepCont_bracket (parseSliceItems f) x rest
  | cons y ys ih =>
    intro x fuel rest hf
    cases fuel with
    | zero => simp at hf
    | succ f =>
      have hshape : commaSep quoteChars (x :: y :: ys) ++ (']' :: rest)
          = quoteChars x ++ (',' :: (commaSep quoteChars (y :: ys) ++ (']' :: rest))) := by
        simp [commaSep, List.append_assoc]
      rw [hshape]
      simp only [parseSliceItems]
      rw [parseQuoted_quoteChars]
      show sepCont (parseSliceItems f) x
          (',' :: (commaSep quoteChars (y :: ys) ++ (']' :: rest))) = _
      rw [sepCont_comma, ih y f rest (by simp only [List.length_cons] at hf ⊢; omega)]
      rfl

theorem parseSlice_sliceChars (xs : List String) (rest : List Char) :
    parseSlice (sliceChars xs ++ rest) = some (xs, rest) := by
  cases xs with
  | nil =>
    show parseSlice ('[' :: ']' :: rest) = some ([], rest)
    rfl
  | cons x xs =>
    obtain ⟨s, hs⟩ := commaSep_cons quoteChars x xs
    have hA : sliceChars (x :: xs) ++ rest
        = '[' :: '"' :: ((escChars x.toList ++ ['"']) ++ s ++ (']' :: rest)) := by
      simp [sliceChars, hs, quoteChars, List.append_assoc]
    have hback : '"' :: ((escChars x.toList ++ ['"']) ++ s ++ (']' :: rest))
        = commaSep quoteChars (x :: xs) ++ (']' :: rest) := by
      simp [hs, quoteChars, List.append_assoc]
    rw [hA]
    show parseSliceItems
        (('"' :: ((escChars x.toList ++ ['"']) ++ s ++ (']' :: rest))).length + 1)
        ('"' :: ((escChars x.toList ++ ['"']) ++ s ++ (']' :: rest))) = some (x :: xs, rest)
    rw [hback]
    apply parseSliceItems_spec
    have hlen := commaSep_length_ge quoteChars
      (fun t => by simp [quoteChars]) (x :: xs)
    simp only [List.length_append, List.length_cons] at hlen ⊢
    omega

theorem mapValCont_brace (f : List Char → Option (List (String × Int) × List Char))
    (k : String) (v : Int) (r : List Char) :
    mapValCont f k v ('\x7d' :: r) = some ([(k, v)], r) := rfl

theorem mapValCont_comma (f : List Char → Option (List (String × Int) × List Char))
    (k : String) (v : Int) (r : List Char) :
    mapValCont f k v (',' :: r) = (f r).map fun p => ((k, v) :: p.1, p.2) := rfl

theorem mapKeyCont_colon (f : List Char → Option (List (String × Int) × List Char))
    (k : String) (r : List Char) :
    mapKeyCont f k (':' :: r) = (parseInt10 r).bind fun q => mapValCont f k q.1 q.2 := rfl

theorem parseMapItems_spec (m : List (String × Int)) :
    ∀ (kv : String × Int) (fuel : Nat) (rest : List Char),
      m.length < fuel →
      parseMapItems fuel (commaSep mapEntryChars (kv :: m) ++ ('\x7d' :: rest))
        = some (kv :: m, rest) := by
  induction m with
  | nil =>
    intro kv fuel rest hf
    cases fuel with
    | zero => simp at hf
    | succ f =>
      show parseMapItems (f + 1) (mapEntryChars kv ++ ('\x7d' :: rest)) = some ([kv], rest)
      have hshape : mapEntryChars kv ++ ('\x7d' :: rest)
          = quoteChars kv.1 ++ (':' :: (intChars kv.2 ++ ('\x7d' :: rest))) := by
        simp [mapEntryChars, List.append_assoc]
      rw [hshape]
      simp only [parseMapItems]
      rw [parseQuoted_quoteChars]
      show mapKeyCont (parseMapItems f) kv.1
          (':' :: (intChars kv.2 ++ ('\x7d' :: rest))) = _
      rw [mapKeyCont_colon,
        parseInt10_intChars kv.2 _ (by intro c hc; simp at hc; subst hc; decide)]
      show mapValCont (parseMapItems f) kv.1 kv.2 ('\x7d' :: rest) = _
      rw [mapValCont_brace]
  | cons kv2 m ih =>
    intro kv fuel rest hf
    cases fuel with
    | zero => simp at hf
    | succ f =>
      have hshape : commaSep mapEntryChars (kv :: kv2 :: m) ++ ('\x7d' :: rest)
          = quoteChars kv.1 ++
              (':' :: (intChars kv.2 ++
                (',' :: (commaSep mapEntryChars (kv2 :: m) ++ ('\x7d' :: rest))))) := by
        simp [commaSep, mapEntryChars, List.append_assoc]
      rw [hshape]
      simp only [parseMapItems]
      rw [parseQuoted_quoteChars]
      show mapKeyCont (parseMapItems f) kv.1
          (':' :: (intChars kv.2 ++
            (',' :: (commaSep mapEntryChars (kv2 :: m) ++ ('\x7d' :: rest))))) = _
      rw [mapKeyCont_colon,
        parseInt10_intChars kv.2 _ (by intro c hc; simp at hc; subst hc; decide)]
      show mapValCont (parseMapItems f) kv.1 kv.2
          (',' :: (commaSep mapEntryChars (kv2 :: m) ++ ('\x7d' :: rest))) = _
      rw [mapValCont_comma, ih kv2 f rest (by simp only [List.length_cons] at hf ⊢; omega)]
      rfl

theorem parseMap_mapChars (m : List (String × Int)) (rest : List Char) :
    parseMap (mapChars m ++ rest) = some (m, rest) := by
  cases m with
  | nil =>
    show parseMap ('\x7b' :: '\x7d' :: rest) = some ([], rest)
    rfl
  | cons kv m =>
    obtain ⟨s, hs⟩ := commaSep_cons mapEntryChars kv m
    have hA : mapChars (kv :: m) ++ rest
        = '\x7b' :: '"' :: ((escChars kv.1.toList ++ ['"']) ++ (':' :: intChars kv.2) ++ s
            ++ ('\x7d' :: rest)) := by
      simp [mapChars, hs, mapEntryChars, quoteChars, List.append_assoc]
    have hback : ('"' :: ((escChars kv.1.toList ++ ['"']) ++ (':' :: intChars kv.2) ++ s
            ++ ('\x7d' :: rest)))
        = commaSep mapEntryChars (kv :: m) ++ ('\x7d' :: rest) := by
      simp [hs, mapEntryChars, quoteChars, List.append_assoc]
    rw [hA]
    show parseMapItems
        (('"' :: ((escChars kv.1.toList ++ ['"']) ++ (':' :: intChars kv.2) ++ s
            ++ ('\x7d' :: rest))).length + 1)
        ('"' :: ((escChars kv.1.toList ++ ['"']) ++ (':' :: intChars kv.2) ++ s
            ++ ('\x7d' :: rest))) = some (kv :: m, rest)
    rw [hback]
    apply parseMapItems_spec
    have hlen := commaSep_length_ge mapEntryChars
      (fun t => by simp [mapEntryChars, quoteChars]) (kv :: m)
    simp only [List.length_append, List.length_cons] at hlen ⊢
    omega

theorem dropLit_append (lit cs : List Char) : dropLit lit (lit ++ cs) = some cs := by
  induction lit with
  | nil => rfl
  | cons l ls ih =>
    show dropLit (l :: ls) (l :: (ls ++ cs)) = some cs
    simp only [dropLit, if_pos rfl]
    exact ih

theorem parseStruct_structChars (name : String) (rest : List Char) :
    parseStruct (structChars name ++ rest) = some (name, rest) := by
  have hlit : "\x7b\"Name\":".toList = '\x7b' :: "\"Name\":".toList := by decide
  have hshape : structChars name ++ rest
      = "\x7b\"Name\":".toList ++ (quoteChars name ++ ('\x7d' :: rest)) := by
    rw [hlit]
    simp [structChars, quoteChars, List.append_assoc]
  rw [hshape]
  simp only [parseStruct]
  rw [dropLit_append]
  show (parseQuoted (quoteChars name ++ ('\x7d' :: rest))).bind
      (fun p => structEnd p.1 p.2) = _
  rw [parseQuoted_quoteChars]
  rfl

theorem mk_ne_empty (c : Char) (l : List Char) : (⟨c :: l⟩ : String) ≠ "" := by
  intro h
  have h2 : c :: l = ([] : List Char) := congrArg String.toList h
  exact List.noConfusion h2

/-- A full `Pull`-then-`Push` cycle on a fresh field restores the value up
to nil-normalization. -/
theorem pushPull (v : FVal) :
    push v (pull false v freshStaging) = normalizeNil v := by
  cases v with
  | fstr s => rfl
  | fint n => rfl
  | fbool b => cases b <;> rfl
  | fstruct name =>
    have hne : jsonStruct name ≠ "" := mk_ne_empty '\x7b' _
    have hp : parseStruct (jsonStruct name).toList = some (name, []) := by
      have h0 := parseStruct_structChars name []
      simpa using h0
    simp only [pull, push, normalizeNil]
    rw [if_neg hne, hp]
  | fslice ox =>
    cases ox with
    | none => decide
    | some xs =>
      have hne : jsonSlice xs ≠ "" := mk_ne_empty '[' _
      have hp : parseSlice (jsonSlice xs).toList = some (xs, []) := by
        have h0 := parseSlice_sliceChars xs []
        simpa using h0
      simp only [pull, push, normalizeNil]
      rw [if_neg hne, hp]
  | fmap om =>
    cases om with
    | none => decide
    | some m =>
      have hne : jsonMap m ≠ "" := mk_ne_empty '\x7b' _
      have hp : parseMap (jsonMap m).toList = some (m, []) := by
        have h0 := parseMap_mapChars m []
        simpa using h0
      simp only [pull, push, normalizeNil]
      rw [if_neg hne, hp]

/-! ## Dispatch-loop lemmas -/

/-- Staged streams are well-formed: a non-update event carries no
post-image. -/
def WfEv (e : EvF) : Prop := e.action ≠ ActUpdated → e.ukind = ""

theorem dispatchItr_cons3 (wk : String) (id act : Nat) (k k2 : String)
    (tail3 : List JItem) :
    dispatchItr wk (JItem.ev id act :: JItem.model k :: JItem.model k2 :: tail3)
      = if act = ActUpdated then eventCbs wk ⟨id, act, k, k2⟩ ++ dispatchItr wk tail3
        else eventCbs wk ⟨id, act, k, ""⟩
          ++ dispatchItr wk (JItem.model k2 :: tail3) := rfl

theorem dispatchItr_cons2 (wk : String) (id act : Nat) (k : String)
    (tail2 : List JItem) (h : ¬ act = ActUpdated) :
    dispatchItr wk (JItem.ev id act :: JItem.model k :: tail2)
      = eventCbs wk ⟨id, act, k, ""⟩ ++ dispatchItr wk tail2 := by
  cases tail2 with
  | nil =>
    show (if act = ActUpdated then _ else _) = _
    rw [if_neg h]
  | cons i tail =>
    cases i with
    | ev id2 act2 =>
      show (if act = ActUpdated then _ else _) = _
      rw [if_neg h]
    | model k2 =>
      rw [dispatchItr_cons3, if_neg h]

theorem dispatchItr_block (wk : String) (e : EvF) (hwf : WfEv e) (rest : List JItem) :
    dispatchItr wk (block e ++ rest) = eventCbs wk e ++ dispatchItr wk rest := by
  by_cases hu : e.action = ActUpdated
  · rw [show block e
        = [JItem.ev e.id e.action, JItem.model e.kind, JItem.model e.ukind] from by
      simp [block, hu]]
    simp only [List.cons_append, List.nil_append]
    rw [dispatchItr_cons3, if_pos hu]
  · have hk : e.ukind = "" := hwf hu
    rw [show block e = [JItem.ev e.id e.action, JItem.model e.kind] from by
      simp [block, hu]]
    simp only [List.cons_append, List.nil_append]
    rw [dispatchItr_cons2 wk _ _ _ _ hu]
    have he : (⟨e.id, e.action, e.kind, ""⟩ : EvF) = e := by rw [← hk]
    rw [he]

theorem dispatchItr_itrOf (wk : String) (es : List EvF) (h : ∀ e ∈ es, WfEv e) :
    dispatchItr wk (itrOf es) = (es.map (eventCbs wk)).flatten := by
  induction es with
  | nil => rfl
  | cons e es ih =>
    rw [show itrOf (e :: es) = block e ++ itrOf es from by simp [itrOf]]
    rw [dispatchItr_block wk e (h e (by simp)) _, ih (fun x hx => h x (by simp [hx]))]
    simp

theorem runLoop_shift (wk : String) :
    ∀ (itrs : List (List JItem)) (c : Nat),
      runLoop wk (c + 1) itrs = (itrs.map (dispatchItr wk)).flatten := by
  intro itrs
  induction itrs with
  | nil => intro c; rfl
  | cons itr itrs ih =>
    intro c
    simp only [runLoop, if_neg (by omega : ¬ c + 1 + 1 = 1), ih]
    simp

theorem runLoop_zero (wk : String) (itr : List JItem) (itrs : List (List JItem)) :
    runLoop wk 0 (itr :: itrs)
      = dispatchItr wk itr ++ Cb.parity :: (itrs.map (dispatchItr wk)).flatten := by
  simp only [runLoop, if_pos rfl, runLoop_shift]
  simp

theorem parity_not_mem_eventCbs (wk : String) (e : EvF) : Cb.parity ∉ eventCbs wk e := by
  unfold eventCbs
  split_ifs <;> simp

theorem parity_not_mem_flat (wk : String) (es : List EvF) :
    Cb.parity ∉ (es.map (eventCbs wk)).flatten := by
  intro hmem
  rw [List.mem_flatten] at hmem
  obtain ⟨l, hl, hpl⟩ := hmem
  rw [List.mem_map] at hl
  obtain ⟨e, _, rfl⟩ := hl
  exact parity_not_mem_eventCbs wk e hpl

theorem parity_not_mem_flat2 (wk : String) (ess : List (List EvF)) :
    Cb.parity ∉ ((ess.map fun es => (es.map (eventCbs wk)).flatten).flatten) := by
  intro hmem
  rw [List.mem_flatten] at hmem
  obtain ⟨l, hl, hpl⟩ := hmem
  rw [List.mem_map] at hl
  obtain ⟨es, _, rfl⟩ := hl
  exact parity_not_mem_flat wk es hpl

/-! ## Transaction lemmas -/

theorem txStep_reported (s : TxSt) (op : TxOp) :
    (txStep s op).reported = s.reported ∨ op = TxOp.commit true := by
  cases op with
  | write e =>
    left
    simp only [txStep]
    split <;> rfl
  | commit ok =>
    cases ok with
    | true => right; rfl
    | false =>
      left
      simp only [txStep]
      split <;> rfl
  | endTx =>
    left
    simp only [txStep]
    split <;> rfl

theorem txRun_reported_aux :
    ∀ (ops : List TxOp) (s : TxSt),
      (ops.foldl txStep s).reported = s.reported ∨ TxOp.commit true ∈ ops := by
  intro ops
  induction ops with
  | nil => intro s; left; rfl
  | cons op ops ih =>
    intro s
    rcases txStep_reported s op with h | h
    · rcases ih (txStep s op) with h2 | h2
      · left; rw [List.foldl_cons, h2, h]
      · right; simp [h2]
    · right; simp [h]

theorem txWrites (es : List EvF) :
    ∀ (s : TxSt),
      ((es.map TxOp.write).foldl txStep s).reported = s.reported ∧
      ((es.map TxOp.write).foldl txStep s).ended = s.ended := by
  induction es with
  | nil => intro s; exact ⟨rfl, rfl⟩
  | cons e es ih =>
    intro s
    simp only [List.map_cons, List.foldl_cons]
    have h := ih (txStep s (.write e))
    have hr : (txStep s (.write e)).reported = s.reported := by
      simp only [txStep]; split <;> rfl
    have hen : (txStep s (.write e)).ended = s.ended := by
      simp only [txStep]; split <;> rfl
    exact ⟨h.1.trans hr, h.2.trans hen⟩

/-! ## Detail-scan lemmas -/

theorem detailLoop_eq_some (tag : List String) :
    ∀ (fuel start N : Nat), start ≤ N → N < start + fuel →
      hasOpt tag (dOpt N) = true →
      (∀ M, start ≤ M → M < N → hasOpt tag (dOpt M) = false) →
      detailLoop tag start fuel = some N := by
  intro fuel
  induction fuel with
  | zero => intro start N h1 h2 _ _; omega
  | succ f ih =>
    intro start N h1 h2 hN hlt
    by_cases hs : start = N
    · subst hs
      simp [detailLoop, hN]
    · have hfalse : hasOpt tag (dOpt start) = false := hlt start le_rfl (by omega)
      simp only [detailLoop, hfalse, Bool.false_eq_true, if_false]
      exact ih (start + 1) N (by omega) (by omega) hN
        (fun M hM1 hM2 => hlt M (by omega) hM2)

theorem detailLoop_eq_none (tag : List String) :
    ∀ (fuel start : Nat),
      (∀ M, start ≤ M → M < start + fuel → hasOpt tag (dOpt M) = false) →
      detailLoop tag start fuel = none := by
  intro fuel
  induction fuel with
  | zero => intro start _; rfl
  | succ f ih =>
    intro start h
    have h0 : hasOpt tag (dOpt start) = false := h start le_rfl (by omega)
    simp only [detailLoop, h0, Bool.false_eq_true, if_false]
    exact ih (start + 1) (fun M hM1 hM2 => h M (by omega) (by omega))

instance (e : EvF) : Decidable (WfEv e) := by unfold WfEv; infer_instance

/-! # The checked claims -/

/-- C1 (counterexample): a watch that is ended before any iterator is
delivered runs the body of its dispatch loop zero times, so the handler
receives `Started` and `End` but **zero** `Parity` callbacks — the claim
demands exactly one for every execution, this case included. -/
theorem watch_parity_empty_queue_cex :
    watchTrace 7 "A" [] = [Cb.start 7, Cb.endW] ∧
    (watchTrace 7 "A" []).count Cb.parity = 0 := by
  constructor <;> rfl

/-- C1 (amended): on every execution of the dispatch loop that receives at
least one iterator — and the snapshot iterator is delivered first — the
handler receives exactly one `Parity`, after everything dispatched from
that first (snapshot) iterator and before anything dispatched from later
committed-transaction iterators; a watch ended before any iterator is
delivered receives none. -/
theorem watch_parity_after_first_iterator (id : Nat) (wk : String)
    (snap : List EvF) (rest : List (List EvF))
    (hwf : ∀ es ∈ snap :: rest, ∀ e ∈ es, WfEv e) :
    watchTrace id wk (itrOf snap :: rest.map itrOf)
      = Cb.start id ::
          ((snap.map (eventCbs wk)).flatten ++
            Cb.parity ::
              (((rest.map fun es => (es.map (eventCbs wk)).flatten).flatten)
                ++ [Cb.endW])) ∧
    (watchTrace id wk (itrOf snap :: rest.map itrOf)).count Cb.parity = 1 := by
  have hsnap := dispatchItr_itrOf wk snap (hwf snap (by simp))
  have hrest : (rest.map itrOf).map (dispatchItr wk)
      = rest.map fun es => (es.map (eventCbs wk)).flatten := by
    rw [List.map_map]
    apply List.map_congr_left
    intro es hes
    exact dispatchItr_itrOf wk es (hwf es (by simp [hes]))
  have htrace : watchTrace id wk (itrOf snap :: rest.map itrOf)
      = Cb.start id ::
          ((snap.map (eventCbs wk)).flatten ++
            Cb.parity ::
              (((rest.map fun es => (es.map (eventCbs wk)).flatten).flatten)
                ++ [Cb.endW])) := by
    unfold watchTrace
    rw [runLoop_zero, hsnap, hrest]
    simp [List.append_assoc]
  refine ⟨htrace, ?_⟩
  rw [htrace]
  have hA : ((snap.map (eventCbs wk)).flatten).count Cb.parity = 0 :=
    List.count_eq_zero.mpr (parity_not_mem_flat wk snap)
  have hB : ((rest.map fun es => (es.map (eventCbs wk)).flatten).flatten).count Cb.parity
      = 0 :=
    List.count_eq_zero.mpr (parity_not_mem_flat2 wk rest)
  simp [List.count_cons, List.count_append, hA, hB]

/-- Witness for the C1 amended theorem at a concrete watch and streams. -/
theorem watch_parity_after_first_iterator_witness :
    watchTrace 9 "A" [itrOf [⟨1, ActCreated, "A", ""⟩], itrOf [⟨2, ActDeleted, "B", ""⟩]]
      = Cb.start 9 ::
          (([(⟨1, ActCreated, "A", ""⟩ : EvF)].map (eventCbs "A")).flatten ++
            Cb.parity ::
              ((([[(⟨2, ActDeleted, "B", ""⟩ : EvF)]].map
                  fun es => (es.map (eventCbs "A")).flatten).flatten)
                ++ [Cb.endW])) ∧
    (watchTrace 9 "A"
        [itrOf [⟨1, ActCreated, "A", ""⟩], itrOf [⟨2, ActDeleted, "B", ""⟩]]).count
      Cb.parity = 1 :=
  watch_parity_after_first_iterator 9 "A" [⟨1, ActCreated, "A", ""⟩]
    [[⟨2, ActDeleted, "B", ""⟩]] (by decide)

/-- C2 (confirmed): appending any sequence of (heterogeneous) values to a
fresh spill list and draining a reader returns exactly those values, with
their types, in order, and the reader's `Len()` is the append count.  The
two bounds reflect the on-disk `uint64` count and length slots. -/
theorem spill_list_roundtrip (vs : List FbValue)
    (hn : vs.length < 2 ^ 64)
    (hpay : ∀ v ∈ vs, (gobEncode v).length < 2 ^ 64) :
    iterAll (appendAll freshSys vs) = vs ∧
      iterLen (appendAll freshSys vs) = vs.length :=
  spill_roundtrip_core vs hn hpay

/-- Witness for C2 on a concrete heterogeneous sequence. -/
theorem spill_list_roundtrip_witness :
    iterAll (appendAll freshSys [FbValue.person 1 300, FbValue.user 7])
        = [FbValue.person 1 300, FbValue.user 7] ∧
      iterLen (appendAll freshSys [FbValue.person 1 300, FbValue.user 7]) = 2 :=
  spill_list_roundtrip [FbValue.person 1 300, FbValue.user 7] (by decide) (by decide)

/-- C3 (confirmed): after `n ≥ 1` appends the backing file is the 8-byte
little-endian u64 header holding `n`, followed by one entry per value, each
laid out as a 2-byte little-endian u16 kind, an 8-byte little-endian u64
length `L`, and exactly `L` payload bytes. -/
theorem spill_file_layout (vs : List FbValue) (hne : vs ≠ []) (hn : vs.length < 2 ^ 64) :
    (appendAll freshSys vs).writer.file
        = u64le vs.length ++ entriesFlat (stageAll [] vs).2 ∧
    (u64le vs.length).length = 8 ∧
    leVal (u64le vs.length) = vs.length ∧
    (appendAll freshSys vs).writer.length = vs.length ∧
    ∀ kp ∈ (stageAll [] vs).2,
      entryBytes kp.1 kp.2 = u16le kp.1 ++ u64le kp.2.length ++ kp.2 ∧
        (u16le kp.1).length = 2 ∧ (u64le kp.2.length).length = 8 := by
  obtain ⟨h1, h2⟩ := spill_layout_core vs hne
  exact ⟨h1, u64le_length _, leVal_u64le _ hn, h2,
    fun kp _ => ⟨rfl, u16le_length _, u64le_length _⟩⟩

/-- Witness for C3 on a one-element append. -/
theorem spill_file_layout_witness :
    (appendAll freshSys [FbValue.person 1 2]).writer.file
        = u64le 1 ++ entriesFlat (stageAll [] [FbValue.person 1 2]).2 ∧
      leVal (u64le 1) = 1 := by
  have h := spill_file_layout [FbValue.person 1 2] (by decide) (by decide)
  exact ⟨by simpa using h.1, h.2.2.1⟩

/-- C4 (confirmed): staged events are handed to the journal only by a
successful `Commit`; a transaction that writes any number of events and
then calls `End` reports nothing and can cause no handler callback. -/
theorem tx_staged_visibility (es : List EvF) (wk : String) :
    (txRun ((es.map TxOp.write) ++ [TxOp.endTx])).reported = [] ∧
    txCallbacks (txRun ((es.map TxOp.write) ++ [TxOp.endTx])) wk = [] ∧
    (∀ ops : List TxOp, (txRun ops).reported ≠ [] → TxOp.commit true ∈ ops) := by
  have hw := txWrites es tx0
  have h1 : (txRun ((es.map TxOp.write) ++ [TxOp.endTx])).reported = [] := by
    unfold txRun
    rw [List.foldl_append]
    show (txStep ((es.map TxOp.write).foldl txStep tx0) .endTx).reported = []
    have hstep : (txStep ((es.map TxOp.write).foldl txStep tx0) .endTx).reported
        = ((es.map TxOp.write).foldl txStep tx0).reported := by
      simp only [txStep]; split <;> rfl
    rw [hstep, hw.1]
    rfl
  refine ⟨h1, ?_, ?_⟩
  · unfold txCallbacks
    rw [h1]
    rfl
  · intro ops hne
    rcases txRun_reported_aux ops tx0 with h | h
    · exact absurd (show (txRun ops).reported = [] from h) hne
    · exact h

/-- Witness for C4: one write then `End` reports nothing; a transaction
that did report performed a successful commit. -/
theorem tx_staged_visibility_witness :
    (txRun (([(⟨1, ActCreated, "A", ""⟩ : EvF)].map TxOp.write) ++ [TxOp.endTx])).reported
        = [] ∧
      TxOp.commit true ∈ [TxOp.write (⟨1, ActCreated, "A", ""⟩ : EvF), TxOp.commit true] := by
  have h := tx_staged_visibility [⟨1, ActCreated, "A", ""⟩] "A"
  exact ⟨h.1, h.2.2 [TxOp.write ⟨1, ActCreated, "A", ""⟩, TxOp.commit true] (by decide)⟩

theorem tableUpdate_ne_constraint (st : List MRow) (m : MRow) :
    tableUpdate st m ≠ .error .constraint := by
  by_cases h0 : (execUpdate st m).2 = 0 <;> simp [tableUpdate, h0]

/-- C5 (confirmed): an `Insert` hitting the store's constraint violation is
converted into `Update` on the same model and returns that update's result;
no constraint violation ever escapes `Insert` on this table. -/
theorem insert_constraint_fallback (st : List MRow) (m : MRow)
    (h : execInsert st m = .error .constraint) :
    tableInsert st m = tableUpdate st m ∧
    (∀ (st2 : List MRow) (m2 : MRow),
      tableInsert st2 m2 ≠ Except.error DbErr.constraint) := by
  constructor
  · unfold tableInsert
    rw [h]
    rfl
  · intro st2 m2
    unfold tableInsert
    cases hex : execInsert st2 m2 with
    | ok st' => simp
    | error e =>
      have he : e = .constraint := by
        unfold execInsert at hex
        split at hex
        · cases hex; rfl
        · cases hex
      subst he
      simpa using tableUpdate_ne_constraint st2 m2

/-- Witness for C5 at a concrete primary-key collision. -/
theorem insert_constraint_fallback_witness :
    tableInsert [⟨1, "a"⟩] ⟨1, "b"⟩ = tableUpdate [⟨1, "a"⟩] ⟨1, "b"⟩ :=
  (insert_constraint_fallback [⟨1, "a"⟩] ⟨1, "b"⟩ (by decide)).1

/-- C6 (counterexample): the transactional Delete of an absent row does
**not** return success — both branches of its error check return the read's
`NotFound` unchanged. -/
theorem tx_delete_absent_cex :
    txDelete 0 [] [] ⟨1, "x"⟩ = (([], []), some DbErr.notFound) ∧
    some DbErr.notFound ≠ (none : Option DbErr) := by decide

/-- C6 (amended): deleting an absent row is a no-op that stages no event;
the table-level Delete returns success (zero rows affected is not an
error), while the transactional Delete surfaces the `NotFound` from its
initial read. -/
theorem delete_absent_amended (st : List MRow) (staged : List JItem)
    (m : MRow) (serial : Nat) (h : ∀ r ∈ st, r.pk ≠ m.pk) :
    tableDelete st m = .ok st ∧
    txDelete serial st staged m = ((st, staged), some DbErr.notFound) := by
  have hfind : st.find? (fun r => r.pk == m.pk) = none := by
    rw [List.find?_eq_none]
    intro r hr
    simpa using h r hr
  constructor
  · have hfilter : st.filter (fun r => ¬ r.pk == m.pk) = st := by
      rw [List.filter_eq_self]
      intro r hr
      simpa using h r hr
    show Except.ok (st.filter fun r => ¬ r.pk == m.pk) = Except.ok st
    rw [hfilter]
  · unfold txDelete tableGet
    rw [hfind]

/-- Witness for the C6 amended theorem at a concrete store. -/
theorem delete_absent_amended_witness :
    tableDelete [⟨2, "a"⟩] ⟨1, "x"⟩ = .ok [⟨2, "a"⟩] ∧
    txDelete 0 [⟨2, "a"⟩] [] ⟨1, "x"⟩ = (([⟨2, "a"⟩], []), some DbErr.notFound) :=
  delete_absent_amended [⟨2, "a"⟩] [] ⟨1, "x"⟩ 0 (by decide)

/-- C7 (confirmed): the fan-out send to a watch is non-blocking — with room
in the queue the iterator is enqueued, otherwise it is dropped and the
handler's `Error` is invoked with the overflow reason — and in both cases
the watch's state machine (started/done) is untouched. -/
theorem watch_notify_overflow (w : WatchB) (itr : List JItem) :
    (w.queue.length < queueCapacity →
      notify w itr = ({ w with queue := w.queue ++ [itr] }, [])) ∧
    (queueCapacity ≤ w.queue.length →
      notify w itr = (w, [Cb.error "full queue, event discarded"])) ∧
    (notify w itr).1.done = w.done ∧ (notify w itr).1.started = w.started := by
  refine ⟨fun h => ?_, fun h => ?_, ?_, ?_⟩
  · simp [notify, h]
  · simp [notify, Nat.not_lt.mpr h]
  · unfold notify; split <;> rfl
  · unfold notify; split <;> rfl

set_option maxRecDepth 4000 in
/-- Witness for C7: an empty queue accepts, a full (250) queue drops with
the overflow error. -/
theorem watch_notify_overflow_witness :
    notify ⟨1, "A", [], false, false⟩ [] = (⟨1, "A", [[]], false, false⟩, []) ∧
    notify ⟨2, "A", List.replicate 250 [], false, false⟩ []
      = (⟨2, "A", List.replicate 250 [], false, false⟩,
         [Cb.error "full queue, event discarded"]) := by
  constructor
  · exact (watch_notify_overflow ⟨1, "A", [], false, false⟩ []).1
      (by simp [queueCapacity])
  · exact (watch_notify_overflow ⟨2, "A", List.replicate 250 [], false, false⟩ []).2.1
      (by simp [queueCapacity])

/-- C8 (counterexample): a field tagged `d10` does not get detail level 10 —
the scan checks `d0`..`d9` only, so the tag is ignored and the level falls
back to the default 1. -/
theorem detail_d10_cex :
    fieldDetail ["d10"] = 1 ∧ fieldDetail ["d10"] ≠ 10 := by decide

/-- C8 (amended): `d<N>` sets the detail level for N in 0..9 (a `d10`
option is outside the scan and is ignored); with no `d<N>` option PK/key
fields default to level 0 and all others to 1; List/Find with Detail = D
select exactly the fields whose level is ≤ D. -/
theorem detail_levels_amended :
    (∀ (tag : List String) (N : Nat), N < 10 → hasOpt tag (dOpt N) = true →
      (∀ M, M < N → hasOpt tag (dOpt M) = false) → fieldDetail tag = N) ∧
    (∀ tag : List String, (∀ M, M < 10 → hasOpt tag (dOpt M) = false) →
      fieldDetail tag = if isPk tag || isKey tag then 0 else 1) ∧
    (∀ (level : Nat) (fields : List FieldTag) (f : FieldTag),
      f ∈ optionsFields level fields ↔ f ∈ fields ∧ fieldDetail f.tag ≤ level) := by
  refine ⟨?_, ?_, ?_⟩
  · intro tag N hN hopt hlt
    unfold fieldDetail
    rw [detailLoop_eq_some tag MaxDetail 0 N (Nat.zero_le N)
      (by simpa [MaxDetail] using hN) hopt (fun M _ hM => hlt M hM)]
  · intro tag h
    unfold fieldDetail
    rw [detailLoop_eq_none tag MaxDetail 0
      (fun M _ hM => h M (by simpa [MaxDetail] using hM))]
  · intro level fields f
    unfold optionsFields
    rw [List.mem_filter]
    constructor
    · rintro ⟨h1, h2⟩
      exact ⟨h1, by simpa [matchDetail] using h2⟩
    · rintro ⟨h1, h2⟩
      exact ⟨h1, by simpa [matchDetail] using h2⟩

/-- Witness for the C8 amended theorem at concrete tags. -/
theorem detail_levels_amended_witness :
    fieldDetail ["d3"] = 3 ∧ fieldDetail ["pk"] = 0 ∧
    ((⟨"X", ["d3"]⟩ : FieldTag) ∈ optionsFields 5 [(⟨"X", ["d3"]⟩ : FieldTag)]) := by
  obtain ⟨h1, h2, h3⟩ := detail_levels_amended
  refine ⟨h1 ["d3"] 3 (by decide) (by decide) (by decide), ?_, ?_⟩
  · exact (h2 ["pk"] (by decide)).trans (by decide)
  · exact (h3 5 [⟨"X", ["d3"]⟩] ⟨"X", ["d3"]⟩).mpr ⟨by simp, by decide⟩

/-- C9 (counterexample): a nil slice does not survive the staging round
trip — it is stored as `[]` and read back as the **empty** slice, which Go
distinguishes from nil. -/
theorem push_pull_nil_slice_cex :
    push (.fslice none) (pull false (.fslice none) freshStaging) = .fslice (some []) ∧
    FVal.fslice (some []) ≠ FVal.fslice none := by decide

/-- C9 (amended): staging stores a boolean as integer 1/0, a struct, slice
or map as its JSON string, a nil slice as `[]` and a nil map as `\x7b\x7d`;
pushing the row back restores every field value except that a nil slice
returns as the empty slice and a nil map as the empty map. -/
theorem field_staging_amended :
    (∀ b : Bool, (pull false (.fbool b) freshStaging).int = if b then 1 else 0) ∧
    (pull false (.fslice none) freshStaging).str = "[]" ∧
    (pull false (.fmap none) freshStaging).str = "\x7b\x7d" ∧
    (∀ xs, (pull false (.fslice (some xs)) freshStaging).str = jsonSlice xs) ∧
    (∀ m, (pull false (.fmap (some m)) freshStaging).str = jsonMap m) ∧
    (∀ name, (pull false (.fstruct name) freshStaging).str = jsonStruct name) ∧
    (∀ n : Int, (pull false (.fint n) freshStaging).int = n) ∧
    (∀ s, (pull false (.fstr s) freshStaging).str = s) ∧
    (∀ v, push v (pull false v freshStaging) = normalizeNil v) := by
  refine ⟨fun b => ?_, rfl, rfl, fun xs => rfl, fun m => rfl, fun name => rfl,
    fun n => rfl, fun s => rfl, pushPull⟩
  cases b <;> rfl

/-- C10 (confirmed): a write reported to the journal while no registered
watch matches the model's kind leaves the journal — the staged list, the
serial pools, every watch queue — exactly unchanged, so no event exists to
deliver, even to a watch of that kind registered afterwards. -/
theorem journal_unwatched_write_noop (j : JournalSt) (kind ukind : String) (c : Bool)
    (h : hasWatch j kind = false) :
    jCreated j kind c = j ∧ jUpdated j kind ukind c = j ∧ jDeleted j kind c = j := by
  refine ⟨?_, ?_, ?_⟩ <;> simp [jCreated, jUpdated, jDeleted, h]

/-- Witness for C10: a journal watching only kind `B` ignores a write of
kind `A`. -/
theorem journal_unwatched_write_noop_witness :
    jCreated ⟨[⟨1, "B", [], false, false⟩], [], 0, 1⟩ "A" true
      = ⟨[⟨1, "B", [], false, false⟩], [], 0, 1⟩ :=
  (journal_unwatched_write_noop ⟨[⟨1, "B", [], false, false⟩], [], 0, 1⟩ "A" "X" true
    (by decide)).1

end Spec2Proof
